import Mathlib

/-!
SpeedUp: scalar, quaternary (AVX2) and pipelined binary search.

A shallow embedding of `src/benchmark_win.c` (and of the test driver
`src/test_corrections.c`) together with theorems about it.

Modelling conventions.

* An `int64_t* array` is a `List Int`; the `size` argument is passed separately,
  as in the C signature.  A load `array[i]` is `load array i`, which is `none`
  outside the list: such a read ends the run with `Outcome.fault`.
* `int64_t` arithmetic on indices is integer arithmetic reduced into the signed
  64-bit range by `wrap64` after every operation.
* Loops are recursive functions that take an iteration budget (`fuel`); a loop
  that uses up its budget ends with `Outcome.diverge`.  The entry points give
  the budget `size.toNat + 1`; the theorems show that it is never used up.
* Array elements and keys are `int64_t` values, so the lane comparisons of the
  AVX2 code (`_mm256_cmpeq_epi64`, `_mm256_cmpgt_epi64`) are the comparisons of
  the integers they hold.
-/

set_option linter.unusedVariables false

namespace SpeedUp

/-! ## Machine integers -/

/-- Smallest `int64_t`. -/
def INT64_MIN : Int := -9223372036854775808

/-- Largest `int64_t`. -/
def INT64_MAX : Int := 9223372036854775807

/-- Membership in the signed 64-bit range. -/
def isInt64 (x : Int) : Prop := INT64_MIN ≤ x ∧ x ≤ INT64_MAX

instance (x : Int) : Decidable (isInt64 x) :=
  inferInstanceAs (Decidable (INT64_MIN ≤ x ∧ x ≤ INT64_MAX))

/-- Reduction of an integer into the signed 64-bit range (two's complement). -/
def wrap64 (x : Int) : Int :=
  (x + 9223372036854775808) % 18446744073709551616 - 9223372036854775808

/-- The `int64_t` sum `a + b`. -/
def add64 (a b : Int) : Int := wrap64 (a + b)

/-- The `int64_t` difference `a - b`. -/
def sub64 (a b : Int) : Int := wrap64 (a - b)

/-- The `int64_t` product `a * b`. -/
def mul64 (a b : Int) : Int := wrap64 (a * b)

/-- The `int64_t` quotient `a / b`; C division truncates toward zero. -/
def div64 (a b : Int) : Int := wrap64 (Int.tdiv a b)

/-! ## Memory and outcomes -/

/-- The read `array[i]`: `none` when `i` is not an index of the array. -/
def load (array : List Int) (i : Int) : Option Int :=
  if 0 ≤ i then array[i.toNat]? else none

/-- How a call ends: it returns a value, it reads outside the array, or it uses
up its iteration budget. -/
inductive Outcome where
  | ret (value : Int)
  | fault
  | diverge
  deriving DecidableEq, Repr

/-- The type of the C function pointer
`int64_t (*)(int64_t* array, int64_t key, int64_t size)`. -/
abbrev SearchFunc := List Int → Int → Int → Outcome

/-! ## `reference_binary_search` (benchmark_win.c 22-38) -/

/-- The halving loop `while (left <= right) { ... }` followed by `return -1`.
The same loop text is the body of `reference_binary_search` (lines 25-37) and
the finishing loop of `simd_binary_search` (lines 116-128). -/
def scalar_loop (array : List Int) (key : Int) : Nat → Int → Int → Outcome
  | 0, _, _ => .diverge
  | fuel + 1, left, right =>
    if left ≤ right then
      let mid := add64 left (div64 (sub64 right left) 2)
      match load array mid with
      | none => .fault
      | some v =>
        if v = key then .ret mid
        else if v < key then scalar_loop array key fuel (add64 mid 1) right
        else scalar_loop array key fuel left (sub64 mid 1)
    else .ret (-1)

/-- Embedding of `reference_binary_search(array, key, size)`. -/
def reference_binary_search (array : List Int) (key size : Int) : Outcome :=
  scalar_loop array key (size.toNat + 1) 0 (sub64 size 1)

/-! ## The vector step shared by both AVX2 searches -/

/-- The value of `_mm256_movemask_pd` on four lanes whose sign bits are
`b0 .. b3` (lane 0 is bit 0). -/
def movemask (b0 b1 b2 b3 : Bool) : Nat :=
  b0.toNat + 2 * b1.toNat + 4 * b2.toNat + 8 * b3.toNat

/-- What one pass through the body of the vector loop does: it returns a probe
position, it continues with a new range, or it reads outside the array. -/
inductive Step where
  | hit (pos : Int)
  | narrow (left right : Int)
  | fault
  deriving DecidableEq, Repr

/-- The body of the vector loop: lines 55-112 of `simd_binary_search`, and
lines 145-191 of `simd_optimized_binary_search`, which differ from the former
only by two `_mm_prefetch` hints (they read nothing and change no variable). -/
def vector_step (array : List Int) (key left right : Int) : Step :=
  let quarter := div64 (add64 (sub64 right left) 1) 4
  let pos0 := add64 left quarter
  let pos1 := add64 left (mul64 quarter 2)
  let pos2 := add64 left (mul64 quarter 3)
  let pos3 := right
  match load array pos3, load array pos2, load array pos1, load array pos0 with
  | some v3, some v2, some v1, some v0 =>
    let mask := movemask (v0 == key) (v1 == key) (v2 == key) (v3 == key)
    let less_bits :=
      movemask (decide (v0 < key)) (decide (v1 < key)) (decide (v2 < key)) (decide (v3 < key))
    let narrowed : Step :=
      if less_bits = 0xF then .narrow (add64 pos3 1) right
      else if less_bits = 0x7 then .narrow (add64 pos2 1) (sub64 pos3 1)
      else if less_bits = 0x3 then .narrow (add64 pos1 1) (sub64 pos2 1)
      else if less_bits = 0x1 then .narrow (add64 pos0 1) (sub64 pos1 1)
      else .narrow left (sub64 pos0 1)
    if mask ≠ 0 then
      if mask &&& (1 <<< 0) ≠ 0 then .hit pos0
      else if mask &&& (1 <<< 1) ≠ 0 then .hit pos1
      else if mask &&& (1 <<< 2) ≠ 0 then .hit pos2
      else if mask &&& (1 <<< 3) ≠ 0 then .hit pos3
      else narrowed
    else narrowed
  | _, _, _, _ => .fault

/-! ## `simd_binary_search` (benchmark_win.c 43-129) -/

/-- The vector loop `while (right - left > 16)` followed by the finishing
scalar loop. -/
def simd_loop (array : List Int) (key : Int) : Nat → Int → Int → Outcome
  | 0, _, _ => .diverge
  | fuel + 1, left, right =>
    if sub64 right left > 16 then
      match vector_step array key left right with
      | .hit pos => .ret pos
      | .fault => .fault
      | .narrow left' right' => simd_loop array key fuel left' right'
    else scalar_loop array key (fuel + 1) left right

/-- Embedding of `simd_binary_search(array, key, size)`. -/
def simd_binary_search (array : List Int) (key size : Int) : Outcome :=
  if size < 32 then reference_binary_search array key size
  else simd_loop array key (size.toNat + 1) 0 (sub64 size 1)

/-! ## `simd_optimized_binary_search` (benchmark_win.c 133-218) -/

/-- The software-pipelined loop of phase 2 (lines 200-217): `mid` and `value`
were loaded before the iteration that tests them. -/
def pipelined_loop (array : List Int) (key : Int) : Nat → Int → Int → Int → Int → Outcome
  | 0, _, _, _, _ => .diverge
  | fuel + 1, left, right, mid, value =>
    if left ≤ right then
      if value = key then .ret mid
      else
        let left' := if value < key then add64 mid 1 else left
        let right' := if value < key then right else sub64 mid 1
        if left' > right' then .ret (-1)
        else
          let mid' := add64 left' (div64 (sub64 right' left') 2)
          match load array mid' with
          | none => .fault
          | some value' => pipelined_loop array key fuel left' right' mid' value'
    else .ret (-1)

/-- Phase 2 of `simd_optimized_binary_search` (lines 195-217). -/
def pipelined_phase (array : List Int) (key : Int) (fuel : Nat) (left right : Int) : Outcome :=
  if left > right then .ret (-1)
  else
    let mid := add64 left (div64 (sub64 right left) 2)
    match load array mid with
    | none => .fault
    | some value => pipelined_loop array key fuel left right mid value

/-- Phase 1 `while (right - left > 32)` followed by phase 2. -/
def simd_optimized_loop (array : List Int) (key : Int) : Nat → Int → Int → Outcome
  | 0, _, _ => .diverge
  | fuel + 1, left, right =>
    if sub64 right left > 32 then
      match vector_step array key left right with
      | .hit pos => .ret pos
      | .fault => .fault
      | .narrow left' right' => simd_optimized_loop array key fuel left' right'
    else pipelined_phase array key (fuel + 1) left right

/-- Embedding of `simd_optimized_binary_search(array, key, size)`. -/
def simd_optimized_binary_search (array : List Int) (key size : Int) : Outcome :=
  if size < 32 then reference_binary_search array key size
  else simd_optimized_loop array key (size.toNat + 1) 0 (sub64 size 1)

/-! ## The states of the vector loop -/

/-- The range `(left, right)` with which the test `right - left > cutover` of the vector
loop is reached for the `n`-th time (counting from 0), if it is reached: `cutover` is 16
in `simd_binary_search` (line 53) and 32 in `simd_optimized_binary_search` (line 144),
and both loops start from `left = 0`, `right = size - 1`. -/
def vector_head (cutover : Int) (array : List Int) (key size : Int) : Nat → Option (Int × Int)
  | 0 => some (0, sub64 size 1)
  | n + 1 =>
    match vector_head cutover array key size n with
    | none => none
    | some (left, right) =>
      if sub64 right left > cutover then
        match vector_step array key left right with
        | .narrow left' right' => some (left', right')
        | .hit _ => none
        | .fault => none
      else none

/-! ## `verify_function` (benchmark_win.c 263-276) -/

/-- One line `Error: got %lld, expected %lld for key %lld` written by `printf`. -/
structure ErrorLine where
  got : Int
  expected : Int
  key : Int
  deriving DecidableEq, Repr

/-- The loop `for (int64_t k = 0; k < num_test_keys; k++)` of `verify_function`
followed by `return 1`; the second component is the text written by `printf`. -/
def verify_loop (search_func : SearchFunc) (array : List Int) (size : Int)
    (keys : List Int) (num_test_keys : Int) : Nat → Int → Outcome × List ErrorLine
  | 0, _ => (.diverge, [])
  | fuel + 1, k =>
    if k < num_test_keys then
      match load keys k with
      | none => (.fault, [])
      | some key =>
        match reference_binary_search array key size with
        | .fault => (.fault, [])
        | .diverge => (.diverge, [])
        | .ret expected =>
          match search_func array key size with
          | .fault => (.fault, [])
          | .diverge => (.diverge, [])
          | .ret result =>
            if result ≠ expected then (.ret 0, [⟨result, expected, key⟩])
            else verify_loop search_func array size keys num_test_keys fuel (add64 k 1)
    else (.ret 1, [])

/-- Embedding of `verify_function(search_func, array, size, keys, num_test_keys)`:
the returned `int` and the lines printed. -/
def verify_function (search_func : SearchFunc) (array : List Int) (size : Int)
    (keys : List Int) (num_test_keys : Int) : Outcome × List ErrorLine :=
  verify_loop search_func array size keys num_test_keys (num_test_keys.toNat + 1) 0

/-! ## Preconditions of the specification -/

/-- A `SortedSequence`: `sequence[i] < sequence[i+1]` for all valid `i`, that is strictly
ascending and hence duplicate-free. -/
def StrictlyAscending : List Int → Prop
  | [] => True
  | [_] => True
  | a :: b :: rest => a < b ∧ StrictlyAscending (b :: rest)

instance decStrictlyAscending : (S : List Int) → Decidable (StrictlyAscending S)
  | [] => isTrue trivial
  | [_] => isTrue trivial
  | a :: b :: rest =>
    match Int.decLt a b, decStrictlyAscending (b :: rest) with
    | isTrue h1, isTrue h2 => isTrue ⟨h1, h2⟩
    | isFalse h1, _ => isFalse (fun h => h1 h.1)
    | _, isFalse h2 => isFalse (fun h => h2 h.2)

/-- A sequence in which duplicates are allowed: `sequence[i] ≤ sequence[i+1]` for all
valid `i`. -/
def NonDecreasing : List Int → Prop
  | [] => True
  | [_] => True
  | a :: b :: rest => a ≤ b ∧ NonDecreasing (b :: rest)

instance decNonDecreasing : (S : List Int) → Decidable (NonDecreasing S)
  | [] => isTrue trivial
  | [_] => isTrue trivial
  | a :: b :: rest =>
    match Int.decLe a b, decNonDecreasing (b :: rest) with
    | isTrue h1, isTrue h2 => isTrue ⟨h1, h2⟩
    | isFalse h1, _ => isFalse (fun h => h1 h.1)
    | _, isFalse h2 => isFalse (fun h => h2 h.2)

/-- The array `S[i] = 2 * i` of `n` elements built by the drivers. -/
def evens (n : Nat) : List Int := (List.range n).map (fun i => 2 * (i : Int))

/-! ## The postcondition of a search -/

/-- What a search over the candidate range `[left, right]` must deliver: it returns, the
value returned is `-1` or an index of the range that holds the key, and in a
non-decreasing array a key held by the range is not missed. -/
def SearchPost (array : List Int) (key left right : Int) (o : Outcome) : Prop :=
  ∃ r, o = .ret r ∧
    (r = -1 ∨ (left ≤ r ∧ r ≤ right ∧ load array r = some key)) ∧
    (NonDecreasing array → ∀ j, left ≤ j → j ≤ right → load array j = some key → r ≠ -1)

/-! ## Keys and counts used by the drivers -/

/-- The key `array[size-1] + 100` of `test_correctness` (test_corrections.c line 76),
where `mx` is the value of `array[size-1]`, in `int64_t` arithmetic. -/
def key_above (mx : Int) : Int := add64 mx 100

/-- A strictly ascending `int64_t` array whose largest element is `INT64_MAX`. -/
def extremes : List Int :=
  [-9223372036854775808, -9223372036854775709, 9223372036854775807]

/-- An array of 40 elements that is not sorted and holds duplicates. -/
def scrambled : List Int :=
  [5, 3, 9, 3, 7, 1, 8, 2, 6, 4, 5, 3, 9, 3, 7, 1, 8, 2, 6, 4,
   5, 3, 9, 3, 7, 1, 8, 2, 6, 4, 5, 3, 9, 3, 7, 1, 8, 2, 6, 4]

/-- An array of 40 elements in non-decreasing order in which every value occurs four
times. -/
def plateaus : List Int :=
  [0, 0, 0, 0, 2, 2, 2, 2, 4, 4, 4, 4, 6, 6, 6, 6, 8, 8, 8, 8,
   10, 10, 10, 10, 12, 12, 12, 12, 14, 14, 14, 14, 16, 16, 16, 16, 18, 18, 18, 18]

/-- An array of 32 equal elements. -/
def constant32 : List Int := List.replicate 32 7

/-- A search function that never finds the key. -/
def never_found : SearchFunc := fun _ _ _ => .ret (-1)

/-- The number of indices `k < num_test_keys` at which `search_func` and
`reference_binary_search` disagree on `keys[k]`. -/
def mismatch_count (search_func : SearchFunc) (array : List Int) (size : Int)
    (keys : List Int) (num_test_keys : Int) : Nat :=
  (List.range num_test_keys.toNat).countP (fun k =>
    decide (search_func array (keys.getD k 0) size ≠
      reference_binary_search array (keys.getD k 0) size))

/-! ## The parts of a vector step -/

/-- The four candidate positions `pos[0..3]` computed at lines 55-61 of
`simd_binary_search` (lines 145-151 of `simd_optimized_binary_search`). -/
def probe_pos (left right : Int) : Int × Int × Int × Int :=
  let quarter := div64 (add64 (sub64 right left) 1) 4
  (add64 left quarter, add64 left (mul64 quarter 2), add64 left (mul64 quarter 3), right)

/-- The four values `array[pos[0..3]]` loaded at lines 64-69, lane 0 first; `none` when a
load is outside the array. -/
def probe_values (array : List Int) (left right : Int) : Option (Int × Int × Int × Int) :=
  match load array (probe_pos left right).2.2.2, load array (probe_pos left right).2.2.1,
    load array (probe_pos left right).2.1, load array (probe_pos left right).1 with
  | some v3, some v2, some v1, some v0 => some (v0, v1, v2, v3)
  | _, _, _, _ => none

/-- The value of `mask` (line 75): bit `i` is set iff lane `i` equals the key. -/
def equal_mask (key : Int) (v : Int × Int × Int × Int) : Nat :=
  movemask (v.1 == key) (v.2.1 == key) (v.2.2.1 == key) (v.2.2.2 == key)

/-- The value of `less_bits` (line 87): bit `i` is set iff lane `i` is less than the key. -/
def less_bits (key : Int) (v : Int × Int × Int × Int) : Nat :=
  movemask (decide (v.1 < key)) (decide (v.2.1 < key)) (decide (v.2.2.1 < key))
    (decide (v.2.2.2 < key))

/-- The update of the range at lines 91-112 (178-191), as a function of `less_bits` and of
the probe positions. -/
def narrow_range (less : Nat) (left right : Int) (pos : Int × Int × Int × Int) : Step :=
  if less = 0xF then .narrow (add64 pos.2.2.2 1) right
  else if less = 0x7 then .narrow (add64 pos.2.2.1 1) (sub64 pos.2.2.2 1)
  else if less = 0x3 then .narrow (add64 pos.2.1 1) (sub64 pos.2.2.1 1)
  else if less = 0x1 then .narrow (add64 pos.1 1) (sub64 pos.2.1 1)
  else .narrow left (sub64 pos.1 1)

/-- The hit test at lines 76-83 (167-173): the probe position of the lowest set bit of
`mask` is returned; a zero mask falls through to `otherwise`. -/
def hit_or (mask : Nat) (pos : Int × Int × Int × Int) (otherwise : Step) : Step :=
  if mask ≠ 0 then
    if mask &&& (1 <<< 0) ≠ 0 then .hit pos.1
    else if mask &&& (1 <<< 1) ≠ 0 then .hit pos.2.1
    else if mask &&& (1 <<< 2) ≠ 0 then .hit pos.2.2.1
    else if mask &&& (1 <<< 3) ≠ 0 then .hit pos.2.2.2
    else otherwise
  else otherwise

/-! ## The states of the scalar loop -/

/-- The range `(left, right)` with which the test `left <= right` of the loop of
`reference_binary_search` is reached for the `n`-th time (counting from 0), if it is
reached. -/
def reference_head (array : List Int) (key size : Int) : Nat → Option (Int × Int)
  | 0 => some (0, sub64 size 1)
  | n + 1 =>
    match reference_head array key size n with
    | none => none
    | some (left, right) =>
      if left ≤ right then
        let mid := add64 left (div64 (sub64 right left) 2)
        match load array mid with
        | none => none
        | some v =>
          if v = key then none
          else if v < key then some (add64 mid 1, right)
          else some (left, sub64 mid 1)
      else none

/-! ## Arithmetic that stays inside the 64-bit range -/

/-- A value of the signed 64-bit range is not changed by the reduction. -/
theorem wrap64_eq_self {x : Int} (h1 : -9223372036854775808 ≤ x)
    (h2 : x ≤ 9223372036854775807) : wrap64 x = x := by
  unfold wrap64; omega

/-- A sum inside the 64-bit range is computed exactly. -/
theorem add64_eq {a b : Int} (h1 : -9223372036854775808 ≤ a + b)
    (h2 : a + b ≤ 9223372036854775807) : add64 a b = a + b :=
  wrap64_eq_self h1 h2

/-- A difference inside the 64-bit range is computed exactly. -/
theorem sub64_eq {a b : Int} (h1 : -9223372036854775808 ≤ a - b)
    (h2 : a - b ≤ 9223372036854775807) : sub64 a b = a - b :=
  wrap64_eq_self h1 h2

/-- A product inside the 64-bit range is computed exactly. -/
theorem mul64_eq {a b : Int} (h1 : -9223372036854775808 ≤ a * b)
    (h2 : a * b ≤ 9223372036854775807) : mul64 a b = a * b :=
  wrap64_eq_self h1 h2

/-- The quotient of a non-negative `int64_t` by a positive one is the floor quotient. -/
theorem div64_eq {a b : Int} (ha : 0 ≤ a) (hb : 0 < b) (h2 : a ≤ 9223372036854775807) :
    div64 a b = a / b := by
  unfold div64
  rw [Int.tdiv_eq_ediv ha (le_of_lt hb)]
  apply wrap64_eq_self
  · have := Int.ediv_nonneg ha (le_of_lt hb); omega
  · have := Int.ediv_le_self b ha; omega

/-- The midpoint `left + (right - left) / 2` of a non-empty range of indices
is computed without overflow. -/
theorem midpoint_eq {left right : Int} (h0 : 0 ≤ left) (h1 : left ≤ right)
    (h2 : right ≤ 9223372036854775807) :
    add64 left (div64 (sub64 right left) 2) = left + (right - left) / 2 := by
  rw [sub64_eq (by omega) (by omega), div64_eq (by omega) (by omega) (by omega),
    add64_eq (by omega) (by omega)]

/-! ## Loads -/

/-- A load succeeds exactly on the indices of the array. -/
theorem load_eq_some_iff {array : List Int} {i v : Int} :
    load array i = some v ↔ 0 ≤ i ∧ i < array.length ∧ array.getD i.toNat 0 = v := by
  unfold load
  by_cases h : 0 ≤ i
  · rw [if_pos h, List.getElem?_eq_some]
    constructor
    · rintro ⟨hlt, hv⟩
      refine ⟨h, by omega, ?_⟩
      rw [List.getD_eq_getElem _ _ hlt]; exact hv
    · rintro ⟨_, hlt, hv⟩
      have hlt' : i.toNat < array.length := by omega
      refine ⟨hlt', ?_⟩
      rw [List.getD_eq_getElem _ _ hlt'] at hv; exact hv
  · rw [if_neg h]
    constructor
    · intro h'; cases h'
    · rintro ⟨h', _⟩; exact absurd h' h

/-- A load at an index of the array succeeds. -/
theorem load_of_range (array : List Int) (i : Int) (h0 : 0 ≤ i) (h1 : i < array.length) :
    load array i = some (array.getD i.toNat 0) :=
  load_eq_some_iff.2 ⟨h0, h1, rfl⟩

/-- The elements of the array are the values that a load can deliver. -/
theorem mem_iff_load {array : List Int} {k : Int} :
    k ∈ array ↔ ∃ i : Int, load array i = some k := by
  rw [List.mem_iff_getElem?]
  constructor
  · rintro ⟨n, hn⟩
    refine ⟨(n : Int), ?_⟩
    unfold load
    rw [if_pos (by omega)]
    simpa using hn
  · rintro ⟨i, hi⟩
    unfold load at hi
    by_cases h : 0 ≤ i
    · rw [if_pos h] at hi; exact ⟨_, hi⟩
    · rw [if_neg h] at hi; cases hi

/-- A strictly ascending list is a chain for `<`. -/
theorem StrictlyAscending.chain_lt : ∀ {S : List Int}, StrictlyAscending S →
    List.Chain' (fun a b : Int => a < b) S
  | [], _ => List.chain'_nil
  | [_], _ => List.chain'_singleton _
  | _ :: _ :: _, h => List.chain'_cons.2 ⟨h.1, StrictlyAscending.chain_lt h.2⟩

/-- A non-decreasing list is a chain for `≤`. -/
theorem NonDecreasing.chain_le : ∀ {S : List Int}, NonDecreasing S →
    List.Chain' (fun a b : Int => a ≤ b) S
  | [], _ => List.chain'_nil
  | [_], _ => List.chain'_singleton _
  | _ :: _ :: _, h => List.chain'_cons.2 ⟨h.1, NonDecreasing.chain_le h.2⟩

/-- In a non-decreasing array, values are ordered like their indices. -/
theorem NonDecreasing.load_le {S : List Int} (hS : NonDecreasing S) {i j a b : Int}
    (hi : load S i = some a) (hj : load S j = some b) (hij : i ≤ j) : a ≤ b := by
  obtain ⟨hi0, hi1, rfl⟩ := load_eq_some_iff.1 hi
  obtain ⟨hj0, hj1, rfl⟩ := load_eq_some_iff.1 hj
  have hp : List.Pairwise (fun a b : Int => a ≤ b) S := List.chain'_iff_pairwise.1 hS.chain_le
  rw [List.pairwise_iff_getElem] at hp
  have hi' : i.toNat < S.length := by omega
  have hj' : j.toNat < S.length := by omega
  rw [List.getD_eq_getElem _ _ hi', List.getD_eq_getElem _ _ hj']
  rcases eq_or_lt_of_le hij with h | h
  · subst h; exact le_refl _
  · exact hp _ _ hi' hj' (by omega)

/-- In a strictly ascending array, values are strictly ordered like their indices. -/
theorem StrictlyAscending.load_lt {S : List Int} (hS : StrictlyAscending S) {i j a b : Int}
    (hi : load S i = some a) (hj : load S j = some b) (hij : i < j) : a < b := by
  obtain ⟨hi0, hi1, rfl⟩ := load_eq_some_iff.1 hi
  obtain ⟨hj0, hj1, rfl⟩ := load_eq_some_iff.1 hj
  have hp : List.Pairwise (fun a b : Int => a < b) S := List.chain'_iff_pairwise.1 hS.chain_lt
  rw [List.pairwise_iff_getElem] at hp
  have hi' : i.toNat < S.length := by omega
  have hj' : j.toNat < S.length := by omega
  rw [List.getD_eq_getElem _ _ hi', List.getD_eq_getElem _ _ hj']
  exact hp _ _ hi' hj' (by omega)

/-- A strictly ascending array is non-decreasing. -/
theorem StrictlyAscending.nonDecreasing : ∀ {S : List Int}, StrictlyAscending S →
    NonDecreasing S
  | [], _ => trivial
  | [_], _ => trivial
  | _ :: _ :: _, h => ⟨le_of_lt h.1, StrictlyAscending.nonDecreasing h.2⟩

/-- In a strictly ascending array a value has at most one index. -/
theorem StrictlyAscending.load_inj {S : List Int} (hS : StrictlyAscending S) {i j k : Int}
    (hi : load S i = some k) (hj : load S j = some k) : i = j := by
  rcases lt_trichotomy i j with h | h | h
  · exact absurd (hS.load_lt hi hj h) (lt_irrefl _)
  · exact h
  · exact absurd (hS.load_lt hj hi h) (lt_irrefl _)

/-- In a non-decreasing array that holds the key at index `j`, a smaller value lies at a
smaller index and a larger value at a larger index. -/
theorem NonDecreasing.index_order {S : List Int} (hS : NonDecreasing S) {j p key v : Int}
    (hj : load S j = some key) (hp : load S p = some v) :
    (v < key → p < j) ∧ (¬ v < key → v ≠ key → j < p) := by
  constructor
  · intro h
    by_contra hcon
    have := hS.load_le hj hp (by omega)
    omega
  · intro h hne
    by_contra hcon
    have := hS.load_le hp hj (by omega)
    omega

/-! ## The scalar loop -/

/-- A search of a sub-range that keeps every index of the key is a search of the range. -/
theorem SearchPost.widen {array : List Int} {key left right l r : Int} {o : Outcome}
    (h : SearchPost array key l r o) (hl : left ≤ l) (hr : r ≤ right)
    (hkeep : NonDecreasing array → ∀ j, left ≤ j → j ≤ right → load array j = some key →
      l ≤ j ∧ j ≤ r) :
    SearchPost array key left right o := by
  obtain ⟨x, hx, hx1, hx2⟩ := h
  refine ⟨x, hx, ?_, ?_⟩
  · rcases hx1 with h | ⟨ha, hb, hc⟩
    · exact Or.inl h
    · exact Or.inr ⟨by omega, by omega, hc⟩
  · intro hS j hj1 hj2 hj
    exact hx2 hS j (hkeep hS j hj1 hj2 hj).1 (hkeep hS j hj1 hj2 hj).2 hj

/-- The halving loop returns on every array: with a budget above the number of
candidates it ends with `-1` or with an index of the range that holds the key, and in
a non-decreasing array it does not miss a key that the range holds. -/
theorem scalar_loop_spec (array : List Int) (key : Int)
    (hlen : (array.length : Int) ≤ 9223372036854775807) :
    ∀ (fuel : Nat) (left right : Int), 0 ≤ left → right < array.length → left ≤ right + 1 →
      right - left + 1 < fuel →
      SearchPost array key left right (scalar_loop array key fuel left right) := by
  intro fuel
  induction fuel with
  | zero => intro left right h0 h1 h2 h3; omega
  | succ fuel ih =>
    intro left right h0 h1 h2 h3
    by_cases hlr : left ≤ right
    · have hmid := midpoint_eq h0 hlr (by omega)
      have hm1 : left ≤ left + (right - left) / 2 := by omega
      have hm2 : left + (right - left) / 2 ≤ right := by omega
      have hload := load_of_range array (left + (right - left) / 2) (by omega) (by omega)
      generalize left + (right - left) / 2 = mid at hmid hm1 hm2 hload
      generalize array.getD mid.toNat 0 = v at hload
      simp only [scalar_loop, if_pos hlr, hmid, hload]
      by_cases hv : v = key
      · rw [if_pos hv]
        refine ⟨mid, rfl, Or.inr ⟨hm1, hm2, by rw [hload, hv]⟩, ?_⟩
        intro _ j _ _ _; omega
      · rw [if_neg hv]
        by_cases hlt : v < key
        · rw [if_pos hlt, add64_eq (by omega) (by omega)]
          refine (ih (mid + 1) right (by omega) h1 (by omega) (by omega)).widen
            (by omega) (le_refl _) ?_
          intro hS j hj1 hj2 hj
          exact ⟨by have := (hS.index_order hj hload).1 hlt; omega, hj2⟩
        · rw [if_neg hlt, sub64_eq (by omega) (by omega)]
          refine (ih left (mid - 1) h0 (by omega) (by omega) (by omega)).widen
            (le_refl _) (by omega) ?_
          intro hS j hj1 hj2 hj
          exact ⟨hj1, by have := (hS.index_order hj hload).2 hlt hv; omega⟩
    · simp only [scalar_loop, if_neg hlr]
      refine ⟨-1, rfl, Or.inl rfl, ?_⟩
      intro _ j hj1 hj2 _; omega

/-! ## The vector step -/

/-- The guard `right - left > cutover` is evaluated without overflow on a range of
indices. -/
theorem sub64_range {left right : Int} (h0 : 0 ≤ left) (h1 : left ≤ right + 1)
    (h2 : right ≤ 9223372036854775807) : sub64 right left = right - left :=
  sub64_eq (by omega) (by omega)

/-- One pass through the body of the vector loop, on any array and for a range of more
than 17 candidates: every probe is loaded from inside the array; a hit returns a probe
position that holds the key; otherwise the new range lies inside the old one, is
strictly shorter, and in a non-decreasing array still holds every index of the key. -/
theorem vector_step_spec (array : List Int) (key : Int)
    (hlen : (array.length : Int) ≤ 9223372036854775807) {left right : Int}
    (h0 : 0 ≤ left) (h1 : right < array.length) (h2 : 16 < right - left) :
    match vector_step array key left right with
    | .fault => False
    | .hit p => left ≤ p ∧ p ≤ right ∧ load array p = some key
    | .narrow l r => left ≤ l ∧ r ≤ right ∧ l ≤ r + 1 ∧ r - l < right - left ∧
        (NonDecreasing array → ∀ j, left ≤ j → j ≤ right → load array j = some key →
          l ≤ j ∧ j ≤ r) := by
  have hq1 : 4 * ((right - left + 1) / 4) ≤ right - left + 1 := by omega
  have hq2 : right - left + 1 < 4 * ((right - left + 1) / 4) + 4 := by omega
  have hquarter : div64 (add64 (sub64 right left) 1) 4 = (right - left + 1) / 4 := by
    rw [sub64_eq (by omega) (by omega), add64_eq (by omega) (by omega),
      div64_eq (by omega) (by omega) (by omega)]
  generalize (right - left + 1) / 4 = q at hq1 hq2 hquarter
  have hp0 : add64 left q = left + q := add64_eq (by omega) (by omega)
  have hp1 : add64 left (mul64 q 2) = left + q * 2 := by
    rw [mul64_eq (by omega) (by omega), add64_eq (by omega) (by omega)]
  have hp2 : add64 left (mul64 q 3) = left + q * 3 := by
    rw [mul64_eq (by omega) (by omega), add64_eq (by omega) (by omega)]
  have ha0 : add64 (left + q) 1 = left + q + 1 := add64_eq (by omega) (by omega)
  have ha1 : add64 (left + q * 2) 1 = left + q * 2 + 1 := add64_eq (by omega) (by omega)
  have ha2 : add64 (left + q * 3) 1 = left + q * 3 + 1 := add64_eq (by omega) (by omega)
  have ha3 : add64 right 1 = right + 1 := add64_eq (by omega) (by omega)
  have hs0 : sub64 (left + q) 1 = left + q - 1 := sub64_eq (by omega) (by omega)
  have hs1 : sub64 (left + q * 2) 1 = left + q * 2 - 1 := sub64_eq (by omega) (by omega)
  have hs2 : sub64 (left + q * 3) 1 = left + q * 3 - 1 := sub64_eq (by omega) (by omega)
  have hs3 : sub64 right 1 = right - 1 := sub64_eq (by omega) (by omega)
  have hl0 := load_of_range array (left + q) (by omega) (by omega)
  have hl1 := load_of_range array (left + q * 2) (by omega) (by omega)
  have hl2 := load_of_range array (left + q * 3) (by omega) (by omega)
  have hl3 := load_of_range array right (by omega) (by omega)
  generalize array.getD (left + q).toNat 0 = v0 at hl0
  generalize array.getD (left + q * 2).toNat 0 = v1 at hl1
  generalize array.getD (left + q * 3).toNat 0 = v2 at hl2
  generalize array.getD right.toNat 0 = v3 at hl3
  simp only [vector_step, hquarter, hp0, hp1, hp2, hl0, hl1, hl2, hl3, ha0, ha1, ha2, ha3,
    hs0, hs1, hs2, hs3]
  clear hquarter hp0 hp1 hp2 ha0 ha1 ha2 ha3 hs0 hs1 hs2 hs3
  cases e0 : (v0 == key) <;> cases e1 : (v1 == key) <;> cases e2 : (v2 == key) <;>
    cases e3 : (v3 == key) <;>
    simp +decide only [movemask, Bool.toNat_true, Bool.toNat_false, if_true, if_false,
      ite_true, ite_false] <;>
    simp only [beq_iff_eq, beq_eq_false_iff_ne] at e0 e1 e2 e3
  · cases c0 : decide (v0 < key) <;> cases c1 : decide (v1 < key) <;>
      cases c2 : decide (v2 < key) <;> cases c3 : decide (v3 < key) <;>
      simp +decide only [Bool.toNat_true, Bool.toNat_false, if_true, if_false,
        ite_true, ite_false] <;>
      simp only [decide_eq_true_eq, decide_eq_false_iff_not] at c0 c1 c2 c3 <;>
      refine ⟨by omega, by omega, by omega, by omega, ?_⟩ <;>
      intro hS j hj1 hj2 hj <;>
      (first | have g0 := (hS.index_order hj hl0).1 c0
             | have g0 := (hS.index_order hj hl0).2 c0 e0) <;>
      (first | have g1 := (hS.index_order hj hl1).1 c1
             | have g1 := (hS.index_order hj hl1).2 c1 e1) <;>
      (first | have g2 := (hS.index_order hj hl2).1 c2
             | have g2 := (hS.index_order hj hl2).2 c2 e2) <;>
      (first | have g3 := (hS.index_order hj hl3).1 c3
             | have g3 := (hS.index_order hj hl3).2 c3 e3) <;>
      omega
  all_goals
    refine ⟨by omega, by omega, ?_⟩
    first
      | rw [hl0, e0]
      | rw [hl1, e1]
      | rw [hl2, e2]
      | rw [hl3, e3]

/-! ## The pipelined finishing phase -/

/-- The pipelined loop, entered with the midpoint of a non-empty range of indices and
the value loaded from it, ends like the halving loop on that range. -/
theorem pipelined_loop_eq_scalar (array : List Int) (key : Int)
    (hlen : (array.length : Int) ≤ 9223372036854775807) :
    ∀ (fuel : Nat) (left right value : Int), 0 ≤ left → right < array.length →
      left ≤ right → right - left + 1 ≤ fuel →
      load array (left + (right - left) / 2) = some value →
      pipelined_loop array key fuel left right (left + (right - left) / 2) value =
        scalar_loop array key (fuel + 1) left right := by
  intro fuel
  induction fuel with
  | zero => intro left right value h0 h1 h2 h3; omega
  | succ fuel ih =>
    intro left right value h0 h1 hlr h3 hload
    have hmid := midpoint_eq h0 hlr (by omega)
    have hm1 : left ≤ left + (right - left) / 2 := by omega
    have hm2 : left + (right - left) / 2 ≤ right := by omega
    rw [scalar_loop]
    simp only [pipelined_loop, if_pos hlr, hmid, hload]
    generalize left + (right - left) / 2 = mid at hm1 hm2 hload
    by_cases hv : value = key
    · rw [if_pos hv, if_pos hv]
    · rw [if_neg hv, if_neg hv]
      by_cases hlt : value < key
      · simp only [if_pos hlt]
        rw [add64_eq (by omega) (by omega)]
        by_cases hgt : mid + 1 > right
        · rw [if_pos hgt, scalar_loop, if_neg (by omega)]
        · rw [if_neg hgt]
          have hlr' : mid + 1 ≤ right := by omega
          have hmid' := midpoint_eq (by omega : (0 : Int) ≤ mid + 1) hlr' (by omega)
          have hload' := load_of_range array (mid + 1 + (right - (mid + 1)) / 2)
            (by omega) (by omega)
          simp only [hmid', hload']
          exact ih (mid + 1) right _ (by omega) h1 hlr' (by omega) hload'
      · simp only [if_neg hlt]
        rw [sub64_eq (by omega) (by omega)]
        by_cases hgt : left > mid - 1
        · rw [if_pos hgt, scalar_loop, if_neg (by omega)]
        · rw [if_neg hgt]
          have hlr' : left ≤ mid - 1 := by omega
          have hmid' := midpoint_eq h0 hlr' (by omega)
          have hload' := load_of_range array (left + (mid - 1 - left) / 2)
            (by omega) (by omega)
          simp only [hmid', hload']
          exact ih left (mid - 1) _ h0 (by omega) hlr' (by omega) hload'

/-- Phase 2 of the pipelined search ends like the halving loop started on the same
range. -/
theorem pipelined_phase_eq_scalar (array : List Int) (key : Int)
    (hlen : (array.length : Int) ≤ 9223372036854775807) (fuel : Nat) (left right : Int)
    (h0 : 0 ≤ left) (h1 : right < array.length) (h3 : right - left + 1 ≤ fuel) :
    pipelined_phase array key fuel left right = scalar_loop array key (fuel + 1) left right := by
  unfold pipelined_phase
  by_cases hgt : left > right
  · rw [if_pos hgt, scalar_loop, if_neg (by omega)]
  · rw [if_neg hgt]
    have hlr : left ≤ right := by omega
    have hmid := midpoint_eq h0 hlr (by omega)
    have hload := load_of_range array (left + (right - left) / 2) (by omega) (by omega)
    simp only [hmid, hload]
    exact pipelined_loop_eq_scalar array key hlen fuel left right _ h0 h1 hlr h3 hload

/-! ## The two AVX2 searches -/

/-- The loop of `simd_binary_search`, started on a range of indices with a budget above
the number of candidates, is a search of that range on every array. -/
theorem simd_loop_spec (array : List Int) (key : Int)
    (hlen : (array.length : Int) ≤ 9223372036854775807) :
    ∀ (fuel : Nat) (left right : Int), 0 ≤ left → right < array.length → left ≤ right + 1 →
      right - left + 1 < fuel →
      SearchPost array key left right (simd_loop array key fuel left right) := by
  intro fuel
  induction fuel with
  | zero => intro left right h0 h1 h2 h3; omega
  | succ fuel ih =>
    intro left right h0 h1 h2 h3
    rw [simd_loop, sub64_range h0 h2 (by omega)]
    by_cases hc : right - left > 16
    · rw [if_pos hc]
      have hstep := vector_step_spec array key hlen h0 h1 hc
      cases hs : vector_step array key left right with
      | fault => rw [hs] at hstep; exact absurd hstep id
      | hit p =>
        rw [hs] at hstep
        obtain ⟨hp1, hp2, hp3⟩ := hstep
        refine ⟨p, rfl, Or.inr ⟨hp1, hp2, hp3⟩, ?_⟩
        intro _ j _ _ _; omega
      | narrow l r =>
        rw [hs] at hstep
        obtain ⟨hl, hr, hlr, hdec, hkeep⟩ := hstep
        exact (ih l r (by omega) (by omega) hlr (by omega)).widen hl hr hkeep
    · rw [if_neg hc]
      exact scalar_loop_spec array key hlen (fuel + 1) left right h0 h1 h2 h3

/-- The loop of `simd_optimized_binary_search`, started on a range of indices with a
budget above the number of candidates, is a search of that range on every array. -/
theorem simd_optimized_loop_spec (array : List Int) (key : Int)
    (hlen : (array.length : Int) ≤ 9223372036854775807) :
    ∀ (fuel : Nat) (left right : Int), 0 ≤ left → right < array.length → left ≤ right + 1 →
      right - left + 1 < fuel →
      SearchPost array key left right (simd_optimized_loop array key fuel left right) := by
  intro fuel
  induction fuel with
  | zero => intro left right h0 h1 h2 h3; omega
  | succ fuel ih =>
    intro left right h0 h1 h2 h3
    rw [simd_optimized_loop, sub64_range h0 h2 (by omega)]
    by_cases hc : right - left > 32
    · rw [if_pos hc]
      have hstep := vector_step_spec array key hlen h0 h1 (by omega)
      cases hs : vector_step array key left right with
      | fault => rw [hs] at hstep; exact absurd hstep id
      | hit p =>
        rw [hs] at hstep
        obtain ⟨hp1, hp2, hp3⟩ := hstep
        refine ⟨p, rfl, Or.inr ⟨hp1, hp2, hp3⟩, ?_⟩
        intro _ j _ _ _; omega
      | narrow l r =>
        rw [hs] at hstep
        obtain ⟨hl, hr, hlr, hdec, hkeep⟩ := hstep
        exact (ih l r (by omega) (by omega) hlr (by omega)).widen hl hr hkeep
    · rw [if_neg hc, pipelined_phase_eq_scalar array key hlen (fuel + 1) left right h0 h1
        (by omega)]
      exact scalar_loop_spec array key hlen (fuel + 1 + 1) left right h0 h1 h2 (by omega)

/-! ## The three entry points -/

/-- `reference_binary_search` is a search of the whole array. -/
theorem reference_post (S : List Int) (key : Int)
    (hlen : (S.length : Int) ≤ 9223372036854775807) :
    SearchPost S key 0 (S.length - 1) (reference_binary_search S key S.length) := by
  unfold reference_binary_search
  rw [sub64_eq (by omega) (by omega)]
  exact scalar_loop_spec S key hlen _ 0 _ (le_refl _) (by omega) (by omega) (by omega)

/-- `simd_binary_search` is a search of the whole array. -/
theorem simd_post (S : List Int) (key : Int)
    (hlen : (S.length : Int) ≤ 9223372036854775807) :
    SearchPost S key 0 (S.length - 1) (simd_binary_search S key S.length) := by
  unfold simd_binary_search
  split
  · exact reference_post S key hlen
  · rw [sub64_eq (by omega) (by omega)]
    exact simd_loop_spec S key hlen _ 0 _ (le_refl _) (by omega) (by omega) (by omega)

/-- `simd_optimized_binary_search` is a search of the whole array. -/
theorem simd_optimized_post (S : List Int) (key : Int)
    (hlen : (S.length : Int) ≤ 9223372036854775807) :
    SearchPost S key 0 (S.length - 1) (simd_optimized_binary_search S key S.length) := by
  unfold simd_optimized_binary_search
  split
  · exact reference_post S key hlen
  · rw [sub64_eq (by omega) (by omega)]
    exact simd_optimized_loop_spec S key hlen _ 0 _ (le_refl _) (by omega) (by omega) (by omega)

/-- A search of the whole of a strictly ascending array returns the index of a key that
the array holds. -/
theorem SearchPost.found {S : List Int} {key i : Int} {o : Outcome}
    (h : SearchPost S key 0 (S.length - 1) o) (hS : StrictlyAscending S)
    (hi : load S i = some key) : o = .ret i := by
  obtain ⟨r, hr, hr1, hr2⟩ := h
  obtain ⟨hi0, hi1, _⟩ := load_eq_some_iff.1 hi
  have hne := hr2 hS.nonDecreasing i hi0 (by omega) hi
  rcases hr1 with h | ⟨_, _, hc⟩
  · exact absurd h hne
  · rw [hr, hS.load_inj hc hi]

/-- A search returns `-1` for a key that the array does not hold. -/
theorem SearchPost.absent {S : List Int} {key left right : Int} {o : Outcome}
    (h : SearchPost S key left right o) (hk : key ∉ S) : o = .ret (-1) := by
  obtain ⟨r, hr, hr1, _⟩ := h
  rcases hr1 with h | ⟨_, _, hc⟩
  · rw [hr, h]
  · exact absurd (mem_iff_load.2 ⟨r, hc⟩) hk

/-- A search of the whole array returns `-1` or an index that holds the key. -/
theorem SearchPost.sentinel {S : List Int} {key : Int} {o : Outcome}
    (h : SearchPost S key 0 (S.length - 1) o) :
    ∃ r, o = .ret r ∧ (r = -1 ∨ (0 ≤ r ∧ r < S.length ∧ load S r = some key)) := by
  obtain ⟨r, hr, hr1, _⟩ := h
  refine ⟨r, hr, ?_⟩
  rcases hr1 with h | ⟨ha, hb, hc⟩
  · exact Or.inl h
  · exact Or.inr ⟨ha, by omega, hc⟩

/-- The load at a valid natural index delivers the element at that index. -/
theorem load_natCast (S : List Int) (i : Nat) (hi : i < S.length) :
    load S (i : Int) = some S[i] := by
  unfold load
  rw [if_pos (by omega)]
  simp [List.getElem?_eq_getElem hi]

/-! ## Equivalence with the scalar reference -/

/-- C1. On every strictly ascending array `S` of length `size` (an `int64_t`) and for
every key, `simd_binary_search` and `reference_binary_search` both return, and return
the same value. -/
theorem simd_binary_search_eq_reference (S : List Int) (k size : Int)
    (hS : StrictlyAscending S) (hsize : size = S.length) (hmax : size ≤ INT64_MAX) :
    ∃ r, simd_binary_search S k size = .ret r ∧ reference_binary_search S k size = .ret r := by
  subst hsize
  have hlen : (S.length : Int) ≤ 9223372036854775807 := hmax
  by_cases hk : k ∈ S
  · obtain ⟨i, hi⟩ := mem_iff_load.1 hk
    exact ⟨i, (simd_post S k hlen).found hS hi, (reference_post S k hlen).found hS hi⟩
  · exact ⟨-1, (simd_post S k hlen).absent hk, (reference_post S k hlen).absent hk⟩

/-- C1 at `S[i] = 2 * i`, 100 elements, key 42. -/
theorem simd_binary_search_eq_reference_witness :
    StrictlyAscending (evens 100) ∧ (100 : Int) = (evens 100).length ∧ (100 : Int) ≤ INT64_MAX ∧
      ∃ r, simd_binary_search (evens 100) 42 100 = .ret r ∧
        reference_binary_search (evens 100) 42 100 = .ret r :=
  ⟨by decide, by decide, by decide,
    simd_binary_search_eq_reference (evens 100) 42 100 (by decide) (by decide) (by decide)⟩

/-- C2. On every strictly ascending array `S` of length `size` (an `int64_t`) and for
every key, `simd_optimized_binary_search` (prefetch hints ignored) and
`reference_binary_search` both return, and return the same value. -/
theorem simd_optimized_binary_search_eq_reference (S : List Int) (k size : Int)
    (hS : StrictlyAscending S) (hsize : size = S.length) (hmax : size ≤ INT64_MAX) :
    ∃ r, simd_optimized_binary_search S k size = .ret r ∧
      reference_binary_search S k size = .ret r := by
  subst hsize
  have hlen : (S.length : Int) ≤ 9223372036854775807 := hmax
  by_cases hk : k ∈ S
  · obtain ⟨i, hi⟩ := mem_iff_load.1 hk
    exact ⟨i, (simd_optimized_post S k hlen).found hS hi, (reference_post S k hlen).found hS hi⟩
  · exact ⟨-1, (simd_optimized_post S k hlen).absent hk, (reference_post S k hlen).absent hk⟩

/-- C2 at `S[i] = 2 * i`, 100 elements, key 43. -/
theorem simd_optimized_binary_search_eq_reference_witness :
    StrictlyAscending (evens 100) ∧ (100 : Int) = (evens 100).length ∧ (100 : Int) ≤ INT64_MAX ∧
      ∃ r, simd_optimized_binary_search (evens 100) 43 100 = .ret r ∧
        reference_binary_search (evens 100) 43 100 = .ret r :=
  ⟨by decide, by decide, by decide,
    simd_optimized_binary_search_eq_reference (evens 100) 43 100 (by decide) (by decide)
      (by decide)⟩

/-! ## The search contract -/

/-- C3. Index correctness: on every strictly ascending array `S` of length `size` and for
every valid index `i`, each of the three searches called with the key `S[i]` returns
exactly `i`. -/
theorem index_correctness (S : List Int) (size : Int) (i : Nat) (hi : i < S.length)
    (hS : StrictlyAscending S) (hsize : size = S.length) (hmax : size ≤ INT64_MAX) :
    reference_binary_search S S[i] size = .ret i ∧
      simd_binary_search S S[i] size = .ret i ∧
      simd_optimized_binary_search S S[i] size = .ret i := by
  subst hsize
  have hlen : (S.length : Int) ≤ 9223372036854775807 := hmax
  have hload := load_natCast S i hi
  exact ⟨(reference_post S _ hlen).found hS hload, (simd_post S _ hlen).found hS hload,
    (simd_optimized_post S _ hlen).found hS hload⟩

/-- C3 at the two examples of the specification: index 21 of `S[i] = 2 * i` (key 42), and
the one-element array `[42]`. -/
theorem index_correctness_witness :
    (StrictlyAscending (evens 100) ∧ (100 : Int) = (evens 100).length ∧
      (100 : Int) ≤ INT64_MAX ∧ (evens 100)[21] = 42 ∧
      reference_binary_search (evens 100) (evens 100)[21] 100 = .ret 21 ∧
      simd_binary_search (evens 100) (evens 100)[21] 100 = .ret 21 ∧
      simd_optimized_binary_search (evens 100) (evens 100)[21] 100 = .ret 21) ∧
    (StrictlyAscending [42] ∧ (1 : Int) = [42].length ∧ (1 : Int) ≤ INT64_MAX ∧
      reference_binary_search [42] 42 1 = .ret 0 ∧
      simd_binary_search [42] 42 1 = .ret 0 ∧
      simd_optimized_binary_search [42] 42 1 = .ret 0) :=
  ⟨⟨by decide, by decide, by decide, by decide,
      index_correctness (evens 100) 100 21 (by decide) (by decide) (by decide) (by decide)⟩,
    ⟨by decide, by decide, by decide,
      index_correctness [42] 1 0 (by decide) (by decide) (by decide) (by decide)⟩⟩

/-- C4. Totality of NotFound: on every strictly ascending array `S` of length `size` and
for every key that occurs at no index of `S`, each of the three searches returns `-1`. -/
theorem not_found_returns_minus_one (S : List Int) (k size : Int)
    (hS : StrictlyAscending S) (hsize : size = S.length) (hmax : size ≤ INT64_MAX)
    (hk : k ∉ S) :
    reference_binary_search S k size = .ret (-1) ∧
      simd_binary_search S k size = .ret (-1) ∧
      simd_optimized_binary_search S k size = .ret (-1) := by
  subst hsize
  have hlen : (S.length : Int) ≤ 9223372036854775807 := hmax
  exact ⟨(reference_post S k hlen).absent hk, (simd_post S k hlen).absent hk,
    (simd_optimized_post S k hlen).absent hk⟩

/-- C4 at the two examples of the specification: key 43 in `S[i] = 2 * i`, and key 43 in
the one-element array `[42]`. -/
theorem not_found_returns_minus_one_witness :
    (StrictlyAscending (evens 100) ∧ (100 : Int) = (evens 100).length ∧
      (100 : Int) ≤ INT64_MAX ∧ (43 : Int) ∉ evens 100 ∧
      reference_binary_search (evens 100) 43 100 = .ret (-1) ∧
      simd_binary_search (evens 100) 43 100 = .ret (-1) ∧
      simd_optimized_binary_search (evens 100) 43 100 = .ret (-1)) ∧
    (StrictlyAscending [42] ∧ (1 : Int) = [42].length ∧ (1 : Int) ≤ INT64_MAX ∧
      (43 : Int) ∉ [42] ∧
      reference_binary_search [42] 43 1 = .ret (-1) ∧
      simd_binary_search [42] 43 1 = .ret (-1) ∧
      simd_optimized_binary_search [42] 43 1 = .ret (-1)) :=
  ⟨⟨by decide, by decide, by decide, by decide,
      not_found_returns_minus_one (evens 100) 43 100 (by decide) (by decide) (by decide)
        (by decide)⟩,
    ⟨by decide, by decide, by decide, by decide,
      not_found_returns_minus_one [42] 43 1 (by decide) (by decide) (by decide) (by decide)⟩⟩

/-- C5. Sentinel/index convention: on every array `S` of length `size`, in any order, and
for every key, each of the three searches returns a value `r` that is `-1` or satisfies
`0 ≤ r < size` and `S[r] = k`. -/
theorem sentinel_or_valid_index (S : List Int) (k size : Int)
    (hsize : size = S.length) (hmax : size ≤ INT64_MAX) :
    (∃ r, reference_binary_search S k size = .ret r ∧
      (r = -1 ∨ (0 ≤ r ∧ r < size ∧ load S r = some k))) ∧
    (∃ r, simd_binary_search S k size = .ret r ∧
      (r = -1 ∨ (0 ≤ r ∧ r < size ∧ load S r = some k))) ∧
    (∃ r, simd_optimized_binary_search S k size = .ret r ∧
      (r = -1 ∨ (0 ≤ r ∧ r < size ∧ load S r = some k))) := by
  subst hsize
  have hlen : (S.length : Int) ≤ 9223372036854775807 := hmax
  exact ⟨(reference_post S k hlen).sentinel, (simd_post S k hlen).sentinel,
    (simd_optimized_post S k hlen).sentinel⟩

/-- C5 at an unsorted array of 40 elements with duplicates. -/
theorem sentinel_or_valid_index_witness :
    (40 : Int) = scrambled.length ∧ (40 : Int) ≤ INT64_MAX ∧
    (∃ r, reference_binary_search scrambled 7 40 = .ret r ∧
      (r = -1 ∨ (0 ≤ r ∧ r < 40 ∧ load scrambled r = some 7))) ∧
    (∃ r, simd_binary_search scrambled 7 40 = .ret r ∧
      (r = -1 ∨ (0 ≤ r ∧ r < 40 ∧ load scrambled r = some 7))) ∧
    (∃ r, simd_optimized_binary_search scrambled 7 40 = .ret r ∧
      (r = -1 ∨ (0 ≤ r ∧ r < 40 ∧ load scrambled r = some 7))) :=
  ⟨by decide, by decide, sentinel_or_valid_index scrambled 7 40 (by decide) (by decide)⟩

/-- C6. Threshold delegation: for every `size < 32`, every array and every key, both AVX2
searches are the call `reference_binary_search(array, key, size)`. -/
theorem threshold_delegation (S : List Int) (k size : Int) (hsize : size < 32) :
    simd_binary_search S k size = reference_binary_search S k size ∧
      simd_optimized_binary_search S k size = reference_binary_search S k size := by
  unfold simd_binary_search simd_optimized_binary_search
  rw [if_pos hsize, if_pos hsize]
  exact ⟨rfl, rfl⟩

/-- C6 at `size = 31`. -/
theorem threshold_delegation_witness :
    (31 : Int) < 32 ∧
      simd_binary_search (evens 31) 7 31 = reference_binary_search (evens 31) 7 31 ∧
      simd_optimized_binary_search (evens 31) 7 31 = reference_binary_search (evens 31) 7 31 :=
  ⟨by decide, threshold_delegation (evens 31) 7 31 (by decide)⟩

/-! ## Boundary keys -/

/-- C7, as stated, fails: on the strictly ascending `int64_t` array `extremes` the key
`array[size-1] + 100` wraps around to the element at index 1, and the three searches
find it there. -/
theorem boundary_keys_counterexample :
    StrictlyAscending extremes ∧ (∀ x ∈ extremes, isInt64 x) ∧
      (3 : Int) = extremes.length ∧ load extremes (3 - 1) = some INT64_MAX ∧
      key_above INT64_MAX = -9223372036854775709 ∧
      load extremes 1 = some (key_above INT64_MAX) ∧
      reference_binary_search extremes (key_above INT64_MAX) 3 = .ret 1 ∧
      simd_binary_search extremes (key_above INT64_MAX) 3 = .ret 1 ∧
      simd_optimized_binary_search extremes (key_above INT64_MAX) 3 = .ret 1 := by
  decide

/-- C7, amended. On every non-empty strictly ascending `int64_t` array `S` of length `size`,
with `mn = S[0]` and `mx = S[size-1]`: each of the three searches returns `-1` for the
`int64_t` key `mn - 1`; and, when `mx ≤ INT64_MAX - 100`, the key `array[size-1] + 100`
is computed without overflow and each of the three searches returns `-1` for it. -/
theorem boundary_keys (S : List Int) (size mn mx : Int)
    (hS : StrictlyAscending S) (hint : ∀ x ∈ S, isInt64 x) (hsize : size = S.length)
    (hmax : size ≤ INT64_MAX) (hmn : load S 0 = some mn)
    (hmx : load S (size - 1) = some mx) :
    (isInt64 (mn - 1) →
      reference_binary_search S (mn - 1) size = .ret (-1) ∧
      simd_binary_search S (mn - 1) size = .ret (-1) ∧
      simd_optimized_binary_search S (mn - 1) size = .ret (-1)) ∧
    (mx ≤ INT64_MAX - 100 →
      key_above mx = mx + 100 ∧
      reference_binary_search S (key_above mx) size = .ret (-1) ∧
      simd_binary_search S (key_above mx) size = .ret (-1) ∧
      simd_optimized_binary_search S (key_above mx) size = .ret (-1)) := by
  subst hsize
  have hlen : (S.length : Int) ≤ 9223372036854775807 := hmax
  have hnd := hS.nonDecreasing
  constructor
  · intro _
    have h1 : mn - 1 ∉ S := by
      intro hmem
      obtain ⟨i, hi⟩ := mem_iff_load.1 hmem
      have := hnd.load_le hmn hi (load_eq_some_iff.1 hi).1
      omega
    exact ⟨(reference_post S _ hlen).absent h1, (simd_post S _ hlen).absent h1,
      (simd_optimized_post S _ hlen).absent h1⟩
  · intro hhi
    have hhi' : mx ≤ 9223372036854775807 - 100 := hhi
    have hmx64 : -9223372036854775808 ≤ mx := (hint mx (mem_iff_load.2 ⟨_, hmx⟩)).1
    have habove : key_above mx = mx + 100 := add64_eq (by omega) (by omega)
    have h2 : key_above mx ∉ S := by
      rw [habove]
      intro hmem
      obtain ⟨i, hi⟩ := mem_iff_load.1 hmem
      have := hnd.load_le hi hmx (by have := (load_eq_some_iff.1 hi).2.1; omega)
      omega
    exact ⟨habove, (reference_post S _ hlen).absent h2, (simd_post S _ hlen).absent h2,
      (simd_optimized_post S _ hlen).absent h2⟩

/-- C7, amended, at three arrays: `S[i] = 2 * i` with 100 elements, where the keys are the
`-1` of the test and `298` (the keys `-5` and `250` of the specification are evaluated
too); `[0, INT64_MAX]`, where only the key `-1` below the minimum is covered; and
`[INT64_MIN, 5]`, where only the key `105` above the maximum is. -/
theorem boundary_keys_witness :
    (reference_binary_search (evens 100) (-5) 100 = .ret (-1) ∧
      simd_binary_search (evens 100) (-5) 100 = .ret (-1) ∧
      simd_optimized_binary_search (evens 100) (-5) 100 = .ret (-1) ∧
      reference_binary_search (evens 100) 250 100 = .ret (-1) ∧
      simd_binary_search (evens 100) 250 100 = .ret (-1) ∧
      simd_optimized_binary_search (evens 100) 250 100 = .ret (-1)) ∧
    (StrictlyAscending (evens 100) ∧ (∀ x ∈ evens 100, isInt64 x) ∧
      (100 : Int) = (evens 100).length ∧ (100 : Int) ≤ INT64_MAX ∧
      load (evens 100) 0 = some 0 ∧ load (evens 100) (100 - 1) = some 198 ∧
      isInt64 (0 - 1) ∧ (198 : Int) ≤ INT64_MAX - 100 ∧
      (reference_binary_search (evens 100) (0 - 1) 100 = .ret (-1) ∧
        simd_binary_search (evens 100) (0 - 1) 100 = .ret (-1) ∧
        simd_optimized_binary_search (evens 100) (0 - 1) 100 = .ret (-1)) ∧
      (key_above 198 = 198 + 100 ∧
        reference_binary_search (evens 100) (key_above 198) 100 = .ret (-1) ∧
        simd_binary_search (evens 100) (key_above 198) 100 = .ret (-1) ∧
        simd_optimized_binary_search (evens 100) (key_above 198) 100 = .ret (-1))) ∧
    (StrictlyAscending [0, 9223372036854775807] ∧
      (∀ x ∈ ([0, 9223372036854775807] : List Int), isInt64 x) ∧
      (2 : Int) = ([0, 9223372036854775807] : List Int).length ∧ (2 : Int) ≤ INT64_MAX ∧
      load [0, 9223372036854775807] 0 = some 0 ∧
      load [0, 9223372036854775807] (2 - 1) = some 9223372036854775807 ∧
      isInt64 (0 - 1) ∧ ¬ ((9223372036854775807 : Int) ≤ INT64_MAX - 100) ∧
      (reference_binary_search [0, 9223372036854775807] (0 - 1) 2 = .ret (-1) ∧
        simd_binary_search [0, 9223372036854775807] (0 - 1) 2 = .ret (-1) ∧
        simd_optimized_binary_search [0, 9223372036854775807] (0 - 1) 2 = .ret (-1))) ∧
    (StrictlyAscending [-9223372036854775808, 5] ∧
      (∀ x ∈ ([-9223372036854775808, 5] : List Int), isInt64 x) ∧
      (2 : Int) = ([-9223372036854775808, 5] : List Int).length ∧ (2 : Int) ≤ INT64_MAX ∧
      load [-9223372036854775808, 5] 0 = some (-9223372036854775808) ∧
      load [-9223372036854775808, 5] (2 - 1) = some 5 ∧
      ¬ isInt64 (-9223372036854775808 - 1) ∧ (5 : Int) ≤ INT64_MAX - 100 ∧
      (key_above 5 = 5 + 100 ∧
        reference_binary_search [-9223372036854775808, 5] (key_above 5) 2 = .ret (-1) ∧
        simd_binary_search [-9223372036854775808, 5] (key_above 5) 2 = .ret (-1) ∧
        simd_optimized_binary_search [-9223372036854775808, 5] (key_above 5) 2 =
          .ret (-1))) :=
  ⟨by decide,
    ⟨by decide, by decide, by decide, by decide, by decide, by decide, by decide, by decide,
      (boundary_keys (evens 100) 100 0 198 (by decide) (by decide) (by decide) (by decide)
        (by decide) (by decide)).1 (by decide),
      (boundary_keys (evens 100) 100 0 198 (by decide) (by decide) (by decide) (by decide)
        (by decide) (by decide)).2 (by decide)⟩,
    ⟨by decide, by decide, by decide, by decide, by decide, by decide, by decide, by decide,
      (boundary_keys [0, 9223372036854775807] 2 0 9223372036854775807 (by decide) (by decide)
        (by decide) (by decide) (by decide) (by decide)).1 (by decide)⟩,
    ⟨by decide, by decide, by decide, by decide, by decide, by decide, by decide, by decide,
      (boundary_keys [-9223372036854775808, 5] 2 (-9223372036854775808) 5 (by decide)
        (by decide) (by decide) (by decide) (by decide) (by decide)).2 (by decide)⟩⟩

/-! ## `verify_function` -/

/-- The loop of `verify_function` started at index `k`, when every key below
`num_test_keys` can be read and both searches return on it: either the searches agree
on every remaining key, the result is 1 and nothing is printed; or the result is 0 and
the single line printed reports the first index at which they disagree. -/
theorem verify_loop_spec (f : SearchFunc) (array : List Int) (size : Int) (keys : List Int)
    (n : Int) (hn : n ≤ keys.length) (hmax : n ≤ 9223372036854775807)
    (hret : ∀ k key, 0 ≤ k → k < n → load keys k = some key →
      (∃ e, reference_binary_search array key size = .ret e) ∧
        ∃ r, f array key size = .ret r) :
    ∀ (fuel : Nat) (k : Int), 0 ≤ k → 0 < fuel → n - k < fuel →
      (verify_loop f array size keys n fuel k = (.ret 1, []) ∧
        ∀ j key, k ≤ j → j < n → load keys j = some key →
          f array key size = reference_binary_search array key size) ∨
      (∃ j key r e, k ≤ j ∧ j < n ∧ load keys j = some key ∧ f array key size = .ret r ∧
        reference_binary_search array key size = .ret e ∧ r ≠ e ∧
        verify_loop f array size keys n fuel k = (.ret 0, [⟨r, e, key⟩]) ∧
        ∀ i key', k ≤ i → i < j → load keys i = some key' →
          f array key' size = reference_binary_search array key' size) := by
  intro fuel
  induction fuel with
  | zero => intro k _ h; omega
  | succ fuel ih =>
    intro k hk _ hfuel
    rw [verify_loop]
    by_cases hkn : k < n
    · rw [if_pos hkn]
      have hload := load_of_range keys k hk (by omega)
      generalize keys.getD k.toNat 0 = key at hload
      obtain ⟨⟨e, he⟩, ⟨r, hr⟩⟩ := hret k key hk hkn hload
      simp only [hload, he, hr]
      by_cases hne : r ≠ e
      · rw [if_pos hne]
        refine Or.inr ⟨k, key, r, e, le_refl _, hkn, hload, hr, he, hne, rfl, ?_⟩
        intro i key' h1 h2 _; omega
      · rw [if_neg hne, add64_eq (by omega) (by omega)]
        have hre : r = e := not_not.1 hne
        have hagree : ∀ i key', k ≤ i → i < k + 1 → load keys i = some key' →
            f array key' size = reference_binary_search array key' size := by
          intro i key' h1 h2 hi
          have hik : i = k := by omega
          subst hik
          rw [hload] at hi
          cases hi
          rw [hr, he, hre]
        rcases ih (k + 1) (by omega) (by omega) (by omega) with ⟨h1, h2⟩ | h
        · refine Or.inl ⟨h1, ?_⟩
          intro j key' hj1 hj2 hj
          by_cases hjk : j < k + 1
          · exact hagree j key' hj1 hjk hj
          · exact h2 j key' (by omega) hj2 hj
        · obtain ⟨j, key', r', e', hj1, hj2, hj, hr', he', hne', hres, hbefore⟩ := h
          refine Or.inr ⟨j, key', r', e', by omega, hj2, hj, hr', he', hne', hres, ?_⟩
          intro i key'' hi1 hi2 hi
          by_cases hik : i < k + 1
          · exact hagree i key'' hi1 hik hi
          · exact hbefore i key'' (by omega) hi2 hi
    · rw [if_neg hkn]
      refine Or.inl ⟨rfl, ?_⟩
      intro j key hj1 hj2 _; omega

/-- The loop lemma at the entry of `verify_function`. -/
theorem verify_function_cases (f : SearchFunc) (array : List Int) (size : Int)
    (keys : List Int) (n : Int) (hn : n ≤ keys.length) (hmax : n ≤ 9223372036854775807)
    (hret : ∀ k key, 0 ≤ k → k < n → load keys k = some key →
      (∃ e, reference_binary_search array key size = .ret e) ∧
        ∃ r, f array key size = .ret r) :
    (verify_function f array size keys n = (.ret 1, []) ∧
        ∀ j key, 0 ≤ j → j < n → load keys j = some key →
          f array key size = reference_binary_search array key size) ∨
      (∃ j key r e, 0 ≤ j ∧ j < n ∧ load keys j = some key ∧ f array key size = .ret r ∧
        reference_binary_search array key size = .ret e ∧ r ≠ e ∧
        verify_function f array size keys n = (.ret 0, [⟨r, e, key⟩]) ∧
        ∀ i key', 0 ≤ i → i < j → load keys i = some key' →
          f array key' size = reference_binary_search array key' size) := by
  unfold verify_function
  exact verify_loop_spec f array size keys n hn hmax hret _ 0 (le_refl _) (by omega) (by omega)

/-- C8. When the first `num_test_keys` keys can be read and both searches return on each
of them, `verify_function` returns 1 if and only if `search_func` and
`reference_binary_search` return the same value on every `keys[k]`, `0 ≤ k <
num_test_keys`, and returns 0 otherwise; in particular it returns 1 when
`num_test_keys ≤ 0` and when `search_func` is `reference_binary_search` itself. -/
theorem verify_function_returns (f : SearchFunc) (array : List Int) (size : Int)
    (keys : List Int) (n : Int) (hn : n ≤ keys.length) (hmax : n ≤ INT64_MAX)
    (hret : ∀ k key, 0 ≤ k → k < n → load keys k = some key →
      (∃ e, reference_binary_search array key size = .ret e) ∧
        ∃ r, f array key size = .ret r) :
    ((verify_function f array size keys n).1 = .ret 1 ↔
      ∀ k key, 0 ≤ k → k < n → load keys k = some key →
        f array key size = reference_binary_search array key size) ∧
    ((¬ ∀ k key, 0 ≤ k → k < n → load keys k = some key →
        f array key size = reference_binary_search array key size) →
      (verify_function f array size keys n).1 = .ret 0) ∧
    (n ≤ 0 → (verify_function f array size keys n).1 = .ret 1) ∧
    (verify_function reference_binary_search array size keys n).1 = .ret 1 := by
  have hmax' : n ≤ 9223372036854775807 := hmax
  have hmain : ((verify_function f array size keys n).1 = .ret 1 ↔
      ∀ k key, 0 ≤ k → k < n → load keys k = some key →
        f array key size = reference_binary_search array key size) ∧
    ((¬ ∀ k key, 0 ≤ k → k < n → load keys k = some key →
        f array key size = reference_binary_search array key size) →
      (verify_function f array size keys n).1 = .ret 0) := by
    rcases verify_function_cases f array size keys n hn hmax' hret with ⟨h1, h2⟩ | h
    · refine ⟨⟨fun _ => h2, fun _ => by rw [h1]⟩, fun hcon => absurd h2 hcon⟩
    · obtain ⟨j, key, r, e, hj1, hj2, hj, hr, he, hne, hres, _⟩ := h
      have hdis : ¬ ∀ k key, 0 ≤ k → k < n → load keys k = some key →
          f array key size = reference_binary_search array key size := by
        intro hall
        have := hall j key hj1 hj2 hj
        rw [hr, he] at this
        exact hne (Outcome.ret.inj this)
      refine ⟨⟨fun h => ?_, fun h => absurd h hdis⟩, fun _ => by rw [hres]⟩
      rw [hres] at h
      cases h
  refine ⟨hmain.1, hmain.2, fun hzero => hmain.1.2 (fun k key h0 h1 _ => by omega), ?_⟩
  rcases verify_function_cases reference_binary_search array size keys n hn hmax'
      (fun k key h0 h1 hk => ⟨(hret k key h0 h1 hk).1, (hret k key h0 h1 hk).1⟩) with
    ⟨h1, _⟩ | h
  · rw [h1]
  · obtain ⟨j, key, r, e, _, _, _, hr, he, hne, _, _⟩ := h
    rw [hr] at he
    exact absurd (Outcome.ret.inj he) hne

/-- C8 at `simd_binary_search`, `S[i] = 2 * i` with 100 elements, and the keys 42, 43, 250. -/
theorem verify_function_returns_witness :
    (3 : Int) ≤ ([42, 43, 250] : List Int).length ∧ (3 : Int) ≤ INT64_MAX ∧
    (((verify_function simd_binary_search (evens 100) 100 [42, 43, 250] 3).1 = .ret 1 ↔
      ∀ k key, 0 ≤ k → k < 3 → load [42, 43, 250] k = some key →
        simd_binary_search (evens 100) key 100 = reference_binary_search (evens 100) key 100) ∧
    ((¬ ∀ k key, 0 ≤ k → k < 3 → load [42, 43, 250] k = some key →
        simd_binary_search (evens 100) key 100 = reference_binary_search (evens 100) key 100) →
      (verify_function simd_binary_search (evens 100) 100 [42, 43, 250] 3).1 = .ret 0) ∧
    ((3 : Int) ≤ 0 →
      (verify_function simd_binary_search (evens 100) 100 [42, 43, 250] 3).1 = .ret 1) ∧
    (verify_function reference_binary_search (evens 100) 100 [42, 43, 250] 3).1 = .ret 1) :=
  ⟨by decide, by decide,
    verify_function_returns simd_binary_search (evens 100) 100 [42, 43, 250] 3 (by decide)
      (by decide)
      (fun _ key _ _ _ =>
        ⟨(reference_post (evens 100) key (by decide)).imp (fun _ h => h.1),
          (simd_post (evens 100) key (by decide)).imp (fun _ h => h.1)⟩)⟩

/-- C9, as stated, fails: a search function that never finds the key disagrees with the
reference on both keys of the batch, and `verify_function` prints one line. -/
theorem verify_function_halts_counterexample :
    mismatch_count never_found [0, 2] 2 [0, 2] 2 = 2 ∧
      (verify_function never_found [0, 2] 2 [0, 2] 2).2.length = 1 ∧
      verify_function never_found [0, 2] 2 [0, 2] 2 = (.ret 0, [⟨-1, 0, 0⟩]) := by
  decide

/-- C9, amended. When the first `num_test_keys` keys can be read and both searches return
on each of them, `verify_function` records at most one mismatch. If `search_func` and
`reference_binary_search` agree on every `keys[k]`, `k < num_test_keys`, it prints
nothing and returns 1. Otherwise it prints exactly one `Error:` line, for the first
index `j` at which they disagree, with the two values returned and `keys[j]`, and
returns 0 there without verifying the keys after `j`: the run is the run with
`num_test_keys = j + 1`. So the number of lines is the smaller of 1 and the number of
indices at which they disagree. -/
theorem verify_function_records_first (f : SearchFunc) (array : List Int) (size : Int)
    (keys : List Int) (n : Int) (hn : n ≤ keys.length) (hmax : n ≤ INT64_MAX)
    (hret : ∀ k key, 0 ≤ k → k < n → load keys k = some key →
      (∃ e, reference_binary_search array key size = .ret e) ∧
        ∃ r, f array key size = .ret r) :
    (verify_function f array size keys n).2.length =
      min 1 (mismatch_count f array size keys n) ∧
    ((mismatch_count f array size keys n = 0 ∧
        verify_function f array size keys n = (.ret 1, [])) ∨
      ∃ j key r e, 0 ≤ j ∧ j < n ∧ load keys j = some key ∧
        f array key size = .ret r ∧ reference_binary_search array key size = .ret e ∧
        r ≠ e ∧
        (∀ i key', 0 ≤ i → i < j → load keys i = some key' →
          f array key' size = reference_binary_search array key' size) ∧
        verify_function f array size keys n = (.ret 0, [⟨r, e, key⟩]) ∧
        verify_function f array size keys n = verify_function f array size keys (j + 1)) := by
  have hmax' : n ≤ 9223372036854775807 := hmax
  rcases verify_function_cases f array size keys n hn hmax' hret with ⟨h1, h2⟩ | h
  · have hzero : mismatch_count f array size keys n = 0 := by
      unfold mismatch_count
      rw [List.countP_eq_zero]
      intro k hk
      rw [List.mem_range] at hk
      have hload := load_of_range keys (k : Int) (by omega) (by omega)
      have := h2 k _ (by omega) (by omega) hload
      simpa using this
    refine ⟨?_, Or.inl ⟨hzero, h1⟩⟩
    rw [h1, hzero]
    rfl
  · obtain ⟨j, key, r, e, hj1, hj2, hj, hr, he, hne, hres, hbefore⟩ := h
    have hpos : 0 < mismatch_count f array size keys n := by
      unfold mismatch_count
      rw [List.countP_pos_iff]
      refine ⟨j.toNat, List.mem_range.2 (by omega), ?_⟩
      obtain ⟨_, _, hkey⟩ := load_eq_some_iff.1 hj
      rw [hkey, hr, he]
      simpa using hne
    have hstop : verify_function f array size keys (j + 1) = (.ret 0, [⟨r, e, key⟩]) := by
      rcases verify_function_cases f array size keys (j + 1) (by omega) (by omega)
          (fun k key' h0 h1 hk => hret k key' h0 (by omega) hk) with ⟨_, hall⟩ | h'
      · have := hall j key hj1 (by omega) hj
        rw [hr, he] at this
        exact absurd (Outcome.ret.inj this) hne
      · obtain ⟨j', key', r', e', hj1', hj2', hj', hr', he', hne', hres', _⟩ := h'
        have hjj : j' = j := by
          by_contra hcon
          have := hbefore j' key' hj1' (by omega) hj'
          rw [hr', he'] at this
          exact hne' (Outcome.ret.inj this)
        subst hjj
        rw [hj] at hj'
        cases hj'
        rw [hr] at hr'
        rw [he] at he'
        cases hr'
        cases he'
        exact hres'
    refine ⟨?_, Or.inr ⟨j, key, r, e, hj1, hj2, hj, hr, he, hne, hbefore, hres, ?_⟩⟩
    · rw [hres]
      show 1 = min 1 (mismatch_count f array size keys n)
      omega
    · rw [hres, hstop]

/-- C9, amended, at a search function that never finds, on `[0, 2]` with the keys 5, 0, 2:
the searches agree on the first key and disagree on the other two; the only line
reports index 1, and the run is the run with `num_test_keys = 2`. -/
theorem verify_function_records_first_witness :
    (3 : Int) ≤ ([5, 0, 2] : List Int).length ∧ (3 : Int) ≤ INT64_MAX ∧
      mismatch_count never_found [0, 2] 2 [5, 0, 2] 3 = 2 ∧
      verify_function never_found [0, 2] 2 [5, 0, 2] 3 = (.ret 0, [⟨-1, 0, 0⟩]) ∧
      verify_function never_found [0, 2] 2 [5, 0, 2] 2 = (.ret 0, [⟨-1, 0, 0⟩]) ∧
      ((verify_function never_found [0, 2] 2 [5, 0, 2] 3).2.length =
        min 1 (mismatch_count never_found [0, 2] 2 [5, 0, 2] 3) ∧
      ((mismatch_count never_found [0, 2] 2 [5, 0, 2] 3 = 0 ∧
          verify_function never_found [0, 2] 2 [5, 0, 2] 3 = (.ret 1, [])) ∨
        ∃ j key r e, 0 ≤ j ∧ j < 3 ∧ load [5, 0, 2] j = some key ∧
          never_found [0, 2] key 2 = .ret r ∧ reference_binary_search [0, 2] key 2 = .ret e ∧
          r ≠ e ∧
          (∀ i key', 0 ≤ i → i < j → load [5, 0, 2] i = some key' →
            never_found [0, 2] key' 2 = reference_binary_search [0, 2] key' 2) ∧
          verify_function never_found [0, 2] 2 [5, 0, 2] 3 = (.ret 0, [⟨r, e, key⟩]) ∧
          verify_function never_found [0, 2] 2 [5, 0, 2] 3 =
            verify_function never_found [0, 2] 2 [5, 0, 2] (j + 1))) :=
  ⟨by decide, by decide, by decide, by decide, by decide,
    verify_function_records_first never_found [0, 2] 2 [5, 0, 2] 3 (by decide) (by decide)
      (fun _ key _ _ _ =>
        ⟨(reference_post [0, 2] key (by decide)).imp (fun _ h => h.1), ⟨-1, rfl⟩⟩)⟩

/-! ## The narrowing invariant -/

/-- The ranges listed by `vector_head 16` are the states of the loop of
`simd_binary_search`: the loop continues from each of them. -/
theorem simd_loop_from_head (array : List Int) (key size : Int) :
    ∀ (n fuel : Nat) (left right : Int), vector_head 16 array key size n = some (left, right) →
      n ≤ fuel →
      simd_loop array key fuel 0 (sub64 size 1) = simd_loop array key (fuel - n) left right := by
  intro n
  induction n with
  | zero =>
    intro fuel left right h _
    simp only [vector_head, Option.some.injEq, Prod.mk.injEq] at h
    rw [← h.1, ← h.2]; rfl
  | succ n ih =>
    intro fuel left right h hfuel
    rw [vector_head] at h
    cases hprev : vector_head 16 array key size n with
    | none => rw [hprev] at h; cases h
    | some lr =>
      obtain ⟨l, r⟩ := lr
      rw [hprev] at h
      simp only at h
      by_cases hc : sub64 r l > 16
      · rw [if_pos hc] at h
        rw [ih fuel l r hprev (by omega)]
        have hf : fuel - n = (fuel - (n + 1)) + 1 := by omega
        rw [hf, simd_loop, if_pos hc]
        cases hs : vector_step array key l r with
        | fault => rw [hs] at h; cases h
        | hit p => rw [hs] at h; cases h
        | narrow l' r' =>
          rw [hs] at h
          simp only [Option.some.injEq, Prod.mk.injEq] at h
          rw [← h.1, ← h.2]
      · rw [if_neg hc] at h; cases h

/-- The ranges listed by `vector_head 32` are the states of the loop of
`simd_optimized_binary_search`. -/
theorem simd_optimized_loop_from_head (array : List Int) (key size : Int) :
    ∀ (n fuel : Nat) (left right : Int), vector_head 32 array key size n = some (left, right) →
      n ≤ fuel →
      simd_optimized_loop array key fuel 0 (sub64 size 1) =
        simd_optimized_loop array key (fuel - n) left right := by
  intro n
  induction n with
  | zero =>
    intro fuel left right h _
    simp only [vector_head, Option.some.injEq, Prod.mk.injEq] at h
    rw [← h.1, ← h.2]; rfl
  | succ n ih =>
    intro fuel left right h hfuel
    rw [vector_head] at h
    cases hprev : vector_head 32 array key size n with
    | none => rw [hprev] at h; cases h
    | some lr =>
      obtain ⟨l, r⟩ := lr
      rw [hprev] at h
      simp only at h
      by_cases hc : sub64 r l > 32
      · rw [if_pos hc] at h
        rw [ih fuel l r hprev (by omega)]
        have hf : fuel - n = (fuel - (n + 1)) + 1 := by omega
        rw [hf, simd_optimized_loop, if_pos hc]
        cases hs : vector_step array key l r with
        | fault => rw [hs] at h; cases h
        | hit p => rw [hs] at h; cases h
        | narrow l' r' =>
          rw [hs] at h
          simp only [Option.some.injEq, Prod.mk.injEq] at h
          rw [← h.1, ← h.2]
      · rw [if_neg hc] at h; cases h

/-- Every range reached by the vector loop lies inside the array and, when the array is
non-decreasing, holds every index of the key. -/
theorem vector_head_invariant (S : List Int) (k : Int) (cutover : Int) (hc : 16 ≤ cutover)
    (hlen : (S.length : Int) ≤ 9223372036854775807) (hS : NonDecreasing S) :
    ∀ (n : Nat) (left right : Int), vector_head cutover S k S.length n = some (left, right) →
      0 ≤ left ∧ right ≤ S.length - 1 ∧ left ≤ right + 1 ∧
        ∀ i, load S i = some k → left ≤ i ∧ i ≤ right := by
  intro n
  induction n with
  | zero =>
    intro left right h
    simp only [vector_head, Option.some.injEq, Prod.mk.injEq] at h
    rw [sub64_eq (by omega) (by omega)] at h
    refine ⟨by omega, by omega, by omega, ?_⟩
    intro i hi
    obtain ⟨hi0, hi1, _⟩ := load_eq_some_iff.1 hi
    omega
  | succ n ih =>
    intro left right h
    rw [vector_head] at h
    cases hprev : vector_head cutover S k S.length n with
    | none => rw [hprev] at h; cases h
    | some lr =>
      obtain ⟨l, r⟩ := lr
      rw [hprev] at h
      simp only at h
      obtain ⟨h0, h1, h2, hkeep⟩ := ih l r hprev
      by_cases hg : sub64 r l > cutover
      · rw [if_pos hg] at h
        rw [sub64_range h0 h2 (by omega)] at hg
        have hstep := vector_step_spec S k hlen h0 (by omega : r < S.length)
          (by omega : 16 < r - l)
        cases hs : vector_step S k l r with
        | fault => rw [hs] at h; cases h
        | hit p => rw [hs] at h; cases h
        | narrow l' r' =>
          rw [hs] at h hstep
          simp only [Option.some.injEq, Prod.mk.injEq] at h
          obtain ⟨hl, hr, hlr, _, hkeep'⟩ := hstep
          rw [← h.1, ← h.2]
          refine ⟨by omega, by omega, hlr, ?_⟩
          intro i hi
          exact hkeep' hS i (hkeep i hi).1 (hkeep i hi).2 hi
      · rw [if_neg hg] at h; cases h

/-- C10. Narrowing invariant: on a strictly ascending array `S` of length `size ≥ 32`,
every range `(left, right)` with which the test of the vector loop of
`simd_binary_search` (cutover 16) or of `simd_optimized_binary_search` (cutover 32) is
reached satisfies `0 ≤ left`, `right ≤ size - 1`, `left ≤ right + 1` and holds every
index `i` with `S[i] = k`; when the test succeeds, so that an iteration starts, also
`left ≤ size - 1` and `0 ≤ right`, and a narrowing step keeps every index of the key
in the new range. -/
theorem narrowing_invariant (S : List Int) (k size : Int) (hS : StrictlyAscending S)
    (hsize : size = S.length) (hmin : 32 ≤ size) (hmax : size ≤ INT64_MAX)
    (cutover : Int) (hc : cutover = 16 ∨ cutover = 32) (n : Nat) (left right : Int)
    (hhead : vector_head cutover S k size n = some (left, right)) :
    0 ≤ left ∧ right ≤ size - 1 ∧ left ≤ right + 1 ∧
      (∀ i, load S i = some k → left ≤ i ∧ i ≤ right) ∧
      (sub64 right left > cutover →
        left ≤ size - 1 ∧ 0 ≤ right ∧
        ∀ l r, vector_step S k left right = .narrow l r →
          ∀ i, load S i = some k → l ≤ i ∧ i ≤ r) := by
  subst hsize
  have hlen : (S.length : Int) ≤ 9223372036854775807 := hmax
  have hc16 : 16 ≤ cutover := by omega
  obtain ⟨h0, h1, h2, hkeep⟩ :=
    vector_head_invariant S k cutover hc16 hlen hS.nonDecreasing n left right hhead
  refine ⟨h0, h1, h2, hkeep, ?_⟩
  intro hg
  rw [sub64_range h0 h2 (by omega)] at hg
  refine ⟨by omega, by omega, ?_⟩
  intro l r hs i hi
  have hstep := vector_step_spec S k hlen h0 (by omega : right < S.length)
    (by omega : 16 < right - left)
  rw [hs] at hstep
  exact hstep.2.2.2.2 hS.nonDecreasing i (hkeep i hi).1 (hkeep i hi).2 hi

/-- C10 at `S[i] = 2 * i`, 100 elements, key 42: the second loop test of
`simd_binary_search` is reached with the range `(0, 24)`. -/
theorem narrowing_invariant_witness :
    StrictlyAscending (evens 100) ∧ (100 : Int) = (evens 100).length ∧ (32 : Int) ≤ 100 ∧
      (100 : Int) ≤ INT64_MAX ∧ vector_head 16 (evens 100) 42 100 1 = some (0, 24) ∧
      ((0 : Int) ≤ 0 ∧ (24 : Int) ≤ 100 - 1 ∧ (0 : Int) ≤ 24 + 1 ∧
        (∀ i, load (evens 100) i = some 42 → 0 ≤ i ∧ i ≤ 24) ∧
        (sub64 24 0 > 16 →
          (0 : Int) ≤ 100 - 1 ∧ (0 : Int) ≤ 24 ∧
          ∀ l r, vector_step (evens 100) 42 0 24 = .narrow l r →
            ∀ i, load (evens 100) i = some 42 → l ≤ i ∧ i ≤ r)) :=
  ⟨by decide, by decide, by decide, by decide, by decide,
    narrowing_invariant (evens 100) 42 100 (by decide) (by decide) (by decide) (by decide)
      16 (Or.inl rfl) 1 0 24 (by decide)⟩

/-! ## The parts of a vector step, put together -/

/-- The body of the vector loop is the hit test on the equality mask of the probe values,
followed by the update selected by `less_bits`. -/
theorem vector_step_eq_parts (array : List Int) (key left right : Int) :
    vector_step array key left right =
      match probe_values array left right with
      | none => .fault
      | some v =>
        hit_or (equal_mask key v) (probe_pos left right)
          (narrow_range (less_bits key v) left right (probe_pos left right)) := by
  unfold vector_step probe_values probe_pos
  simp only []
  cases load array right <;>
    cases load array (add64 left (mul64 (div64 (add64 (sub64 right left) 1) 4) 3)) <;>
    cases load array (add64 left (mul64 (div64 (add64 (sub64 right left) 1) 4) 2)) <;>
    cases load array (add64 left (div64 (add64 (sub64 right left) 1) 4)) <;> rfl

/-- The probe positions of a range of indices are computed without overflow. -/
theorem probe_pos_eq {left right : Int} (h0 : 0 ≤ left) (hlr : left ≤ right)
    (hmax : right < 9223372036854775807) :
    probe_pos left right =
      (left + (right - left + 1) / 4, left + (right - left + 1) / 4 * 2,
        left + (right - left + 1) / 4 * 3, right) := by
  have hq1 : 4 * ((right - left + 1) / 4) ≤ right - left + 1 := by omega
  have hq0 : 0 ≤ (right - left + 1) / 4 := by omega
  have hquarter : div64 (add64 (sub64 right left) 1) 4 = (right - left + 1) / 4 := by
    rw [sub64_eq (by omega) (by omega), add64_eq (by omega) (by omega),
      div64_eq (by omega) (by omega) (by omega)]
  unfold probe_pos
  simp only [hquarter]
  generalize (right - left + 1) / 4 = q at hq1 hq0
  rw [mul64_eq (by omega : -9223372036854775808 ≤ q * 2) (by omega),
    mul64_eq (by omega : -9223372036854775808 ≤ q * 3) (by omega),
    add64_eq (by omega : -9223372036854775808 ≤ left + q) (by omega),
    add64_eq (by omega : -9223372036854775808 ≤ left + q * 2) (by omega),
    add64_eq (by omega : -9223372036854775808 ≤ left + q * 3) (by omega)]

/-- The four probes of a range of indices are loaded from inside the array. -/
theorem probe_values_eq (array : List Int) {left right : Int} (h0 : 0 ≤ left)
    (hlr : left ≤ right) (h1 : right < array.length)
    (hlen : (array.length : Int) ≤ 9223372036854775807) :
    ∃ v, probe_values array left right = some v ∧
      load array (left + (right - left + 1) / 4) = some v.1 ∧
      load array (left + (right - left + 1) / 4 * 2) = some v.2.1 ∧
      load array (left + (right - left + 1) / 4 * 3) = some v.2.2.1 ∧
      load array right = some v.2.2.2 := by
  have hq1 : 4 * ((right - left + 1) / 4) ≤ right - left + 1 := by omega
  have hq0 : 0 ≤ (right - left + 1) / 4 := by omega
  unfold probe_values
  rw [probe_pos_eq h0 hlr (by omega)]
  generalize (right - left + 1) / 4 = q at hq1 hq0
  have hl0 := load_of_range array (left + q) (by omega) (by omega)
  have hl1 := load_of_range array (left + q * 2) (by omega) (by omega)
  have hl2 := load_of_range array (left + q * 3) (by omega) (by omega)
  have hl3 := load_of_range array right (by omega) (by omega)
  simp only [hl0, hl1, hl2, hl3]
  exact ⟨_, rfl, rfl, rfl, rfl, rfl⟩

/-- The update of a range of more than 17 indices is computed without overflow. -/
theorem narrow_range_eq (less : Nat) {left right : Int} (h0 : 0 ≤ left)
    (h2 : 16 < right - left) (hmax : right < 9223372036854775807) :
    narrow_range less left right (probe_pos left right) =
      if less = 0xF then .narrow (right + 1) right
      else if less = 0x7 then .narrow (left + (right - left + 1) / 4 * 3 + 1) (right - 1)
      else if less = 0x3 then
        .narrow (left + (right - left + 1) / 4 * 2 + 1) (left + (right - left + 1) / 4 * 3 - 1)
      else if less = 0x1 then
        .narrow (left + (right - left + 1) / 4 + 1) (left + (right - left + 1) / 4 * 2 - 1)
      else .narrow left (left + (right - left + 1) / 4 - 1) := by
  have hq1 : 4 * ((right - left + 1) / 4) ≤ right - left + 1 := by omega
  have hq2 : right - left + 1 < 4 * ((right - left + 1) / 4) + 4 := by omega
  rw [probe_pos_eq h0 (by omega) (by omega)]
  unfold narrow_range
  generalize (right - left + 1) / 4 = q at hq1 hq2
  simp only []
  rw [add64_eq (by omega : -9223372036854775808 ≤ right + 1) (by omega),
    add64_eq (by omega : -9223372036854775808 ≤ left + q * 3 + 1) (by omega),
    add64_eq (by omega : -9223372036854775808 ≤ left + q * 2 + 1) (by omega),
    add64_eq (by omega : -9223372036854775808 ≤ left + q + 1) (by omega),
    sub64_eq (by omega : -9223372036854775808 ≤ right - 1) (by omega),
    sub64_eq (by omega : -9223372036854775808 ≤ left + q * 3 - 1) (by omega),
    sub64_eq (by omega : -9223372036854775808 ≤ left + q * 2 - 1) (by omega),
    sub64_eq (by omega : -9223372036854775808 ≤ left + q - 1) (by omega)]

/-! ## Probe geometry -/

/-- C13. Probe geometry: whenever a vector step runs (`right - left > 16` with
`0 ≤ left ≤ right`, `right` an index of an array of `size` elements, `size` an
`int64_t`), `quarter = (right - left + 1) / 4` is computed without overflow and is at
least 4, the probe positions are `left + quarter`, `left + 2 * quarter`,
`left + 3 * quarter` and `right`, and
`left < left + quarter < left + 2 * quarter < left + 3 * quarter < right`. -/
theorem probe_geometry (left right size : Int) (h0 : 0 ≤ left) (hlr : left ≤ right)
    (h1 : right ≤ size - 1) (hmax : size ≤ INT64_MAX) (hrun : sub64 right left > 16) :
    div64 (add64 (sub64 right left) 1) 4 = (right - left + 1) / 4 ∧
      4 ≤ (right - left + 1) / 4 ∧
      probe_pos left right =
        (left + (right - left + 1) / 4, left + 2 * ((right - left + 1) / 4),
          left + 3 * ((right - left + 1) / 4), right) ∧
      left < left + (right - left + 1) / 4 ∧
      left + (right - left + 1) / 4 < left + 2 * ((right - left + 1) / 4) ∧
      left + 2 * ((right - left + 1) / 4) < left + 3 * ((right - left + 1) / 4) ∧
      left + 3 * ((right - left + 1) / 4) < right := by
  have hmax' : size ≤ 9223372036854775807 := hmax
  rw [sub64_eq (by omega) (by omega)] at hrun
  refine ⟨?_, by omega, ?_, by omega, by omega, by omega, by omega⟩
  · rw [sub64_eq (by omega) (by omega), add64_eq (by omega) (by omega),
      div64_eq (by omega) (by omega) (by omega)]
  · rw [probe_pos_eq h0 hlr (by omega)]
    simp only [Prod.mk.injEq, true_and, and_true]
    constructor
    · omega
    · omega

/-- C13 at the first vector step on 100 elements: `quarter = 25` and the probes are at
25, 50, 75 and 99. -/
theorem probe_geometry_witness :
    (0 : Int) ≤ 0 ∧ (0 : Int) ≤ 99 ∧ (99 : Int) ≤ 100 - 1 ∧ (100 : Int) ≤ INT64_MAX ∧
      sub64 99 0 > 16 ∧ probe_pos 0 99 = (25, 50, 75, 99) ∧
      (div64 (add64 (sub64 99 0) 1) 4 = (99 - 0 + 1) / 4 ∧
      (4 : Int) ≤ (99 - 0 + 1) / 4 ∧
      probe_pos 0 99 =
        (0 + (99 - 0 + 1) / 4, 0 + 2 * ((99 - 0 + 1) / 4), 0 + 3 * ((99 - 0 + 1) / 4), 99) ∧
      (0 : Int) < 0 + (99 - 0 + 1) / 4 ∧
      (0 : Int) + (99 - 0 + 1) / 4 < 0 + 2 * ((99 - 0 + 1) / 4) ∧
      (0 : Int) + 2 * ((99 - 0 + 1) / 4) < 0 + 3 * ((99 - 0 + 1) / 4) ∧
      (0 : Int) + 3 * ((99 - 0 + 1) / 4) < 99) :=
  ⟨by decide, by decide, by decide, by decide, by decide, by decide,
    probe_geometry 0 99 100 (by decide) (by decide) (by decide) (by decide) (by decide)⟩

/-! ## The less-than pattern and the narrowing table -/

/-- Bit `i` of the value of `_mm256_movemask_pd` is the sign bit of lane `i`. -/
theorem movemask_testBit (b0 b1 b2 b3 : Bool) :
    (movemask b0 b1 b2 b3).testBit 0 = b0 ∧ (movemask b0 b1 b2 b3).testBit 1 = b1 ∧
      (movemask b0 b1 b2 b3).testBit 2 = b2 ∧ (movemask b0 b1 b2 b3).testBit 3 = b3 := by
  cases b0 <;> cases b1 <;> cases b2 <;> cases b3 <;> decide

/-- A zero equality mask lets the hit test fall through. -/
theorem hit_or_zero (pos : Int × Int × Int × Int) (otherwise : Step) :
    hit_or 0 pos otherwise = otherwise := by
  unfold hit_or
  rw [if_neg (by decide)]

/-- In a non-decreasing array the probe values of a range of indices are ordered like the
lanes. -/
theorem probe_values_ordered (S : List Int) (hS : NonDecreasing S) {left right : Int}
    (h0 : 0 ≤ left) (hlr : left ≤ right) (h1 : right < S.length)
    (hlen : (S.length : Int) ≤ 9223372036854775807) {v : Int × Int × Int × Int}
    (hv : probe_values S left right = some v) :
    v.1 ≤ v.2.1 ∧ v.2.1 ≤ v.2.2.1 ∧ v.2.2.1 ≤ v.2.2.2 := by
  obtain ⟨w, hw, hl0, hl1, hl2, hl3⟩ := probe_values_eq S h0 hlr h1 hlen
  rw [hv] at hw
  cases hw
  have hq1 : 4 * ((right - left + 1) / 4) ≤ right - left + 1 := by omega
  have hq0 : 0 ≤ (right - left + 1) / 4 := by omega
  generalize (right - left + 1) / 4 = q at hq1 hq0 hl0 hl1 hl2
  exact ⟨hS.load_le hl0 hl1 (by omega), hS.load_le hl1 hl2 (by omega),
    hS.load_le hl2 hl3 (by omega)⟩

/-- C11. Monotonic-prefix patterns: on a strictly ascending array `S`, in every vector step
in which no probe equals the key (the equality mask is 0), the value of `less_bits`,
whose bit `i` is set iff `S[pos[i]] < key`, is one of `0xF`, `0x7`, `0x3`, `0x1`, `0x0`. -/
theorem less_bits_patterns (S : List Int) (key size left right : Int)
    (hS : StrictlyAscending S) (hsize : size = S.length) (hmax : size ≤ INT64_MAX)
    (h0 : 0 ≤ left) (hlr : left ≤ right) (h1 : right ≤ size - 1)
    (hrun : sub64 right left > 16) (v : Int × Int × Int × Int)
    (hv : probe_values S left right = some v) (hno : equal_mask key v = 0) :
    (less_bits key v = 0xF ∨ less_bits key v = 0x7 ∨ less_bits key v = 0x3 ∨
      less_bits key v = 0x1 ∨ less_bits key v = 0x0) ∧
    (((less_bits key v).testBit 0 = true ↔ v.1 < key) ∧
      ((less_bits key v).testBit 1 = true ↔ v.2.1 < key) ∧
      ((less_bits key v).testBit 2 = true ↔ v.2.2.1 < key) ∧
      ((less_bits key v).testBit 3 = true ↔ v.2.2.2 < key)) := by
  subst hsize
  have hlen : (S.length : Int) ≤ 9223372036854775807 := hmax
  obtain ⟨o1, o2, o3⟩ :=
    probe_values_ordered S hS.nonDecreasing h0 hlr (by omega) hlen hv
  constructor
  · unfold less_bits movemask
    cases c0 : decide (v.1 < key) <;> cases c1 : decide (v.2.1 < key) <;>
      cases c2 : decide (v.2.2.1 < key) <;> cases c3 : decide (v.2.2.2 < key) <;>
      first
        | decide
        | (simp only [decide_eq_true_eq, decide_eq_false_iff_not] at c0 c1 c2 c3
           omega)
  · obtain ⟨t0, t1, t2, t3⟩ := movemask_testBit (decide (v.1 < key)) (decide (v.2.1 < key))
      (decide (v.2.2.1 < key)) (decide (v.2.2.2 < key))
    unfold less_bits
    rw [t0, t1, t2, t3]
    simp only [decide_eq_true_eq, and_self]

/-- C11 on `S[i] = 2 * i`, 100 elements, first vector step: the probe values are 50, 100,
150, 198 and the key 151 gives the pattern `0x7`; the keys 199, 151, 101, 51 and 1 give
the five patterns. -/
theorem less_bits_patterns_witness :
    StrictlyAscending (evens 100) ∧ (100 : Int) = (evens 100).length ∧
      (100 : Int) ≤ INT64_MAX ∧ (0 : Int) ≤ 0 ∧ (0 : Int) ≤ 99 ∧ (99 : Int) ≤ 100 - 1 ∧
      sub64 99 0 > 16 ∧ probe_values (evens 100) 0 99 = some (50, 100, 150, 198) ∧
      equal_mask 151 (50, 100, 150, 198) = 0 ∧
      less_bits 199 (50, 100, 150, 198) = 0xF ∧ less_bits 151 (50, 100, 150, 198) = 0x7 ∧
      less_bits 101 (50, 100, 150, 198) = 0x3 ∧ less_bits 51 (50, 100, 150, 198) = 0x1 ∧
      less_bits 1 (50, 100, 150, 198) = 0x0 ∧
      ((less_bits 151 (50, 100, 150, 198) = 0xF ∨ less_bits 151 (50, 100, 150, 198) = 0x7 ∨
        less_bits 151 (50, 100, 150, 198) = 0x3 ∨ less_bits 151 (50, 100, 150, 198) = 0x1 ∨
        less_bits 151 (50, 100, 150, 198) = 0x0) ∧
      (((less_bits 151 (50, 100, 150, 198)).testBit 0 = true ↔ (50 : Int) < 151) ∧
        ((less_bits 151 (50, 100, 150, 198)).testBit 1 = true ↔ (100 : Int) < 151) ∧
        ((less_bits 151 (50, 100, 150, 198)).testBit 2 = true ↔ (150 : Int) < 151) ∧
        ((less_bits 151 (50, 100, 150, 198)).testBit 3 = true ↔ (198 : Int) < 151))) :=
  ⟨by decide, by decide, by decide, by decide, by decide, by decide, by decide, by decide,
    by decide, by decide, by decide, by decide, by decide, by decide,
    less_bits_patterns (evens 100) 151 100 0 99 (by decide) (by decide) (by decide)
      (by decide) (by decide) (by decide) (by decide) (50, 100, 150, 198) (by decide)
      (by decide)⟩

/-- Both vector loops continue with the range that the step delivers. -/
theorem loops_follow_narrow (array : List Int) (key left right : Int) (fuel : Nat)
    (l r : Int) (hrun : sub64 right left > 16)
    (hstep : vector_step array key left right = .narrow l r) :
    simd_loop array key (fuel + 1) left right = simd_loop array key fuel l r ∧
      (sub64 right left > 32 →
        simd_optimized_loop array key (fuel + 1) left right =
          simd_optimized_loop array key fuel l r) := by
  constructor
  · rw [simd_loop, if_pos hrun, hstep]
  · intro h32
    rw [simd_optimized_loop, if_pos h32, hstep]

/-- Both vector loops return the position that the step delivers. -/
theorem loops_return_hit (array : List Int) (key left right : Int) (fuel : Nat)
    (pos : Int) (hrun : sub64 right left > 16)
    (hstep : vector_step array key left right = .hit pos) :
    simd_loop array key (fuel + 1) left right = .ret pos ∧
      (sub64 right left > 32 →
        simd_optimized_loop array key (fuel + 1) left right = .ret pos) := by
  constructor
  · rw [simd_loop, if_pos hrun, hstep]
  · intro h32
    rw [simd_optimized_loop, if_pos h32, hstep]

/-- C12. Narrowing table: in a vector step with probes `p0 < p1 < p2 < p3 = right` and no
probe equal to the key, the new range is `[p3+1, right]` for the less-than pattern 1111,
`[p2+1, p3-1]` for 0111, `[p1+1, p2-1]` for 0011, `[p0+1, p1-1]` for 0001 and
`[left, p0-1]` for 0000; the loop of `simd_binary_search` and (beyond its cutover 32) the
loop of `simd_optimized_binary_search` both continue with that range. -/
theorem narrowing_table (array : List Int) (key size left right : Int)
    (hsize : size = array.length) (hmax : size ≤ INT64_MAX)
    (h0 : 0 ≤ left) (hlr : left ≤ right) (h1 : right ≤ size - 1)
    (hrun : sub64 right left > 16) (v : Int × Int × Int × Int)
    (hv : probe_values array left right = some v) (hno : equal_mask key v = 0) :
    ∃ p0 p1 p2 p3, probe_pos left right = (p0, p1, p2, p3) ∧
      p0 < p1 ∧ p1 < p2 ∧ p2 < p3 ∧ p3 = right ∧
      (less_bits key v = 0xF → vector_step array key left right = .narrow (p3 + 1) right) ∧
      (less_bits key v = 0x7 →
        vector_step array key left right = .narrow (p2 + 1) (p3 - 1)) ∧
      (less_bits key v = 0x3 →
        vector_step array key left right = .narrow (p1 + 1) (p2 - 1)) ∧
      (less_bits key v = 0x1 →
        vector_step array key left right = .narrow (p0 + 1) (p1 - 1)) ∧
      (less_bits key v = 0x0 → vector_step array key left right = .narrow left (p0 - 1)) ∧
      ∀ (fuel : Nat) (l r : Int), vector_step array key left right = .narrow l r →
        simd_loop array key (fuel + 1) left right = simd_loop array key fuel l r ∧
        (sub64 right left > 32 →
          simd_optimized_loop array key (fuel + 1) left right =
            simd_optimized_loop array key fuel l r) := by
  subst hsize
  have hmax' : (array.length : Int) ≤ 9223372036854775807 := hmax
  have hrun' := hrun
  rw [sub64_eq (by omega) (by omega)] at hrun'
  have hstep : vector_step array key left right =
      narrow_range (less_bits key v) left right (probe_pos left right) := by
    rw [vector_step_eq_parts, hv]
    simp only [hno, hit_or_zero]
  rw [narrow_range_eq _ h0 hrun' (by omega)] at hstep
  refine ⟨_, _, _, _, probe_pos_eq h0 hlr (by omega), by omega, by omega, by omega, rfl,
    ?_, ?_, ?_, ?_, ?_, ?_⟩
  · intro h; rw [hstep, h]; rfl
  · intro h; rw [hstep, h]; rfl
  · intro h; rw [hstep, h]; rfl
  · intro h; rw [hstep, h]; rfl
  · intro h; rw [hstep, h]; rfl
  · intro fuel l r hs
    exact loops_follow_narrow array key left right fuel l r hrun hs

/-- C12 on `S[i] = 2 * i`, 100 elements, first vector step, key 151: the pattern is 0111 and
the new range is `[76, 98]`. -/
theorem narrowing_table_witness :
    (100 : Int) = (evens 100).length ∧ (100 : Int) ≤ INT64_MAX ∧ (0 : Int) ≤ 0 ∧
      (0 : Int) ≤ 99 ∧ (99 : Int) ≤ 100 - 1 ∧ sub64 99 0 > 16 ∧
      probe_values (evens 100) 0 99 = some (50, 100, 150, 198) ∧
      equal_mask 151 (50, 100, 150, 198) = 0 ∧ less_bits 151 (50, 100, 150, 198) = 0x7 ∧
      vector_step (evens 100) 151 0 99 = .narrow 76 98 ∧
      ∃ p0 p1 p2 p3, probe_pos 0 99 = (p0, p1, p2, p3) ∧
        p0 < p1 ∧ p1 < p2 ∧ p2 < p3 ∧ p3 = 99 ∧
        (less_bits 151 (50, 100, 150, 198) = 0xF →
          vector_step (evens 100) 151 0 99 = .narrow (p3 + 1) 99) ∧
        (less_bits 151 (50, 100, 150, 198) = 0x7 →
          vector_step (evens 100) 151 0 99 = .narrow (p2 + 1) (p3 - 1)) ∧
        (less_bits 151 (50, 100, 150, 198) = 0x3 →
          vector_step (evens 100) 151 0 99 = .narrow (p1 + 1) (p2 - 1)) ∧
        (less_bits 151 (50, 100, 150, 198) = 0x1 →
          vector_step (evens 100) 151 0 99 = .narrow (p0 + 1) (p1 - 1)) ∧
        (less_bits 151 (50, 100, 150, 198) = 0x0 →
          vector_step (evens 100) 151 0 99 = .narrow 0 (p0 - 1)) ∧
        ∀ (fuel : Nat) (l r : Int), vector_step (evens 100) 151 0 99 = .narrow l r →
          simd_loop (evens 100) 151 (fuel + 1) 0 99 = simd_loop (evens 100) 151 fuel l r ∧
          (sub64 99 0 > 32 →
            simd_optimized_loop (evens 100) 151 (fuel + 1) 0 99 =
              simd_optimized_loop (evens 100) 151 fuel l r) :=
  ⟨by decide, by decide, by decide, by decide, by decide, by decide, by decide, by decide,
    by decide, by decide,
    narrowing_table (evens 100) 151 100 0 99 (by decide) (by decide) (by decide) (by decide)
      (by decide) (by decide) (50, 100, 150, 198) (by decide) (by decide)⟩

/-! ## The hit case -/

/-- The hit test returns the probe position of the first lane that equals the key. -/
theorem hit_or_first_lane (key : Int) (v pos : Int × Int × Int × Int) (otherwise : Step) :
    (v.1 = key → hit_or (equal_mask key v) pos otherwise = .hit pos.1) ∧
    (v.1 ≠ key → v.2.1 = key → hit_or (equal_mask key v) pos otherwise = .hit pos.2.1) ∧
    (v.1 ≠ key → v.2.1 ≠ key → v.2.2.1 = key →
      hit_or (equal_mask key v) pos otherwise = .hit pos.2.2.1) ∧
    (v.1 ≠ key → v.2.1 ≠ key → v.2.2.1 ≠ key → v.2.2.2 = key →
      hit_or (equal_mask key v) pos otherwise = .hit pos.2.2.2) := by
  unfold hit_or equal_mask movemask
  cases e0 : (v.1 == key) <;> cases e1 : (v.2.1 == key) <;> cases e2 : (v.2.2.1 == key) <;>
    cases e3 : (v.2.2.2 == key) <;>
    simp only [beq_iff_eq, beq_eq_false_iff_ne] at e0 e1 e2 e3 <;>
    simp +decide only [e0, e1, e2, e3, Bool.toNat_true, Bool.toNat_false, if_true, if_false,
      ite_true, ite_false, ne_eq, not_true_eq_false, not_false_eq_true, false_implies,
      true_implies, implies_true, and_self, and_true, true_and]

/-- C14. Hit case: in a vector step, if a probe value equals the key the step delivers
`pos[i]` for the smallest lane `i` whose probe value equals the key, and both loops
return it at once; on a strictly ascending array at most one of the four lanes equals
the key and the position returned is the only index that holds the key. -/
theorem hit_case (array : List Int) (key size left right : Int)
    (hsize : size = array.length) (hmax : size ≤ INT64_MAX)
    (h0 : 0 ≤ left) (hlr : left ≤ right) (h1 : right ≤ size - 1)
    (hrun : sub64 right left > 16) (v : Int × Int × Int × Int)
    (hv : probe_values array left right = some v) :
    ((v.1 = key → vector_step array key left right = .hit (probe_pos left right).1) ∧
      (v.1 ≠ key → v.2.1 = key →
        vector_step array key left right = .hit (probe_pos left right).2.1) ∧
      (v.1 ≠ key → v.2.1 ≠ key → v.2.2.1 = key →
        vector_step array key left right = .hit (probe_pos left right).2.2.1) ∧
      (v.1 ≠ key → v.2.1 ≠ key → v.2.2.1 ≠ key → v.2.2.2 = key →
        vector_step array key left right = .hit (probe_pos left right).2.2.2)) ∧
    (∀ (fuel : Nat) (pos : Int), vector_step array key left right = .hit pos →
      simd_loop array key (fuel + 1) left right = .ret pos ∧
      (sub64 right left > 32 →
        simd_optimized_loop array key (fuel + 1) left right = .ret pos)) ∧
    (StrictlyAscending array →
      [v.1, v.2.1, v.2.2.1, v.2.2.2].count key ≤ 1 ∧
      ∀ pos, vector_step array key left right = .hit pos →
        ∀ j, load array j = some key → j = pos) := by
  subst hsize
  have hlen : (array.length : Int) ≤ 9223372036854775807 := hmax
  have hrun' := hrun
  rw [sub64_eq (by omega) (by omega)] at hrun'
  refine ⟨?_, ?_, ?_⟩
  · rw [vector_step_eq_parts, hv]
    exact hit_or_first_lane key v _ _
  · intro fuel pos hs
    exact loops_return_hit array key left right fuel pos hrun hs
  · intro hS
    constructor
    · obtain ⟨w, hw, hl0, hl1, hl2, hl3⟩ := probe_values_eq array h0 hlr (by omega) hlen
      rw [hv] at hw
      cases hw
      have hq1 : 4 * ((right - left + 1) / 4) ≤ right - left + 1 := by omega
      have hq0 : 4 ≤ (right - left + 1) / 4 := by omega
      generalize (right - left + 1) / 4 = q at hq1 hq0 hl0 hl1 hl2
      have o1 := hS.load_lt hl0 hl1 (by omega)
      have o2 := hS.load_lt hl1 hl2 (by omega)
      have o3 := hS.load_lt hl2 hl3 (by omega)
      simp only [List.count_cons, List.count_nil, beq_iff_eq]
      split <;> split <;> split <;> split <;> omega
    · intro pos hs j hj
      have hspec := vector_step_spec array key hlen h0 (by omega : right < array.length) hrun'
      rw [hs] at hspec
      exact hS.load_inj hj hspec.2.2

/-- C14 on `S[i] = 2 * i`, 100 elements, first vector step, key 100: lane 1 is the first
lane that holds the key and the step delivers its position 50. -/
theorem hit_case_witness :
    (100 : Int) = (evens 100).length ∧ (100 : Int) ≤ INT64_MAX ∧ (0 : Int) ≤ 0 ∧
      (0 : Int) ≤ 99 ∧ (99 : Int) ≤ 100 - 1 ∧ sub64 99 0 > 16 ∧
      probe_values (evens 100) 0 99 = some (50, 100, 150, 198) ∧
      vector_step (evens 100) 100 0 99 = .hit 50 ∧
      simd_binary_search (evens 100) 100 100 = .ret 50 ∧
      (((50 : Int) = 100 → vector_step (evens 100) 100 0 99 = .hit (probe_pos 0 99).1) ∧
        ((50 : Int) ≠ 100 → (100 : Int) = 100 →
          vector_step (evens 100) 100 0 99 = .hit (probe_pos 0 99).2.1) ∧
        ((50 : Int) ≠ 100 → (100 : Int) ≠ 100 → (150 : Int) = 100 →
          vector_step (evens 100) 100 0 99 = .hit (probe_pos 0 99).2.2.1) ∧
        ((50 : Int) ≠ 100 → (100 : Int) ≠ 100 → (150 : Int) ≠ 100 → (198 : Int) = 100 →
          vector_step (evens 100) 100 0 99 = .hit (probe_pos 0 99).2.2.2)) ∧
      (∀ (fuel : Nat) (pos : Int), vector_step (evens 100) 100 0 99 = .hit pos →
        simd_loop (evens 100) 100 (fuel + 1) 0 99 = .ret pos ∧
        (sub64 99 0 > 32 →
          simd_optimized_loop (evens 100) 100 (fuel + 1) 0 99 = .ret pos)) ∧
      (StrictlyAscending (evens 100) →
        [(50 : Int), 100, 150, 198].count 100 ≤ 1 ∧
        ∀ pos, vector_step (evens 100) 100 0 99 = .hit pos →
          ∀ j, load (evens 100) j = some 100 → j = pos) :=
  ⟨by decide, by decide, by decide, by decide, by decide, by decide, by decide, by decide,
    by decide,
    hit_case (evens 100) 100 100 0 99 (by decide) (by decide) (by decide) (by decide)
      (by decide) (by decide) (50, 100, 150, 198) (by decide)⟩

/-! ## Per-step reduction -/

/-- When the hit test delivers a new range, no lane was hit and the range is the one
selected by `less_bits`. -/
theorem hit_or_narrow {mask : Nat} {pos : Int × Int × Int × Int} {otherwise : Step}
    {l r : Int} (h : hit_or mask pos otherwise = .narrow l r) : otherwise = .narrow l r := by
  unfold hit_or at h
  split_ifs at h <;> exact h

/-- C17. Per-step reduction: a vector step on a range of `n = right - left + 1 ≥ 18`
candidates that does not hit leaves a range of at most `n / 4 + 1` candidates, on
every array and in every branch of the narrowing case. -/
theorem per_step_reduction (array : List Int) (key size left right : Int)
    (hsize : size = array.length) (hmax : size ≤ INT64_MAX)
    (h0 : 0 ≤ left) (h1 : right ≤ size - 1) (hn : 18 ≤ right - left + 1)
    (l r : Int) (hstep : vector_step array key left right = .narrow l r) :
    r - l + 1 ≤ (right - left + 1) / 4 + 1 := by
  subst hsize
  have hlen : (array.length : Int) ≤ 9223372036854775807 := hmax
  obtain ⟨v, hv, _⟩ := probe_values_eq array h0 (by omega : left ≤ right) (by omega) hlen
  rw [vector_step_eq_parts, hv] at hstep
  have hnar := hit_or_narrow hstep
  rw [narrow_range_eq _ h0 (by omega) (by omega)] at hnar
  have hq1 : 4 * ((right - left + 1) / 4) ≤ right - left + 1 := by omega
  have hq2 : right - left + 1 < 4 * ((right - left + 1) / 4) + 4 := by omega
  generalize (right - left + 1) / 4 = q at hq1 hq2 hnar
  clear hstep hv hlen hmax h1 h0
  split_ifs at hnar <;>
    (simp only [Step.narrow.injEq] at hnar
     omega)

/-- C17 on `S[i] = 2 * i`, 100 elements, first vector step, key 151: 100 candidates become
the 23 candidates of `[76, 98]`. -/
theorem per_step_reduction_witness :
    (100 : Int) = (evens 100).length ∧ (100 : Int) ≤ INT64_MAX ∧ (0 : Int) ≤ 0 ∧
      (99 : Int) ≤ 100 - 1 ∧ (18 : Int) ≤ 99 - 0 + 1 ∧
      vector_step (evens 100) 151 0 99 = .narrow 76 98 ∧
      (98 : Int) - 76 + 1 ≤ (99 - 0 + 1) / 4 + 1 :=
  ⟨by decide, by decide, by decide, by decide, by decide, by decide,
    per_step_reduction (evens 100) 151 100 0 99 (by decide) (by decide) (by decide)
      (by decide) (by decide) 76 98 (by decide)⟩

/-! ## A larger budget does not change a result -/

/-- Once the halving loop ends within its budget, one more unit of budget gives the same
result. -/
theorem scalar_loop_succ (array : List Int) (key : Int) :
    ∀ (fuel : Nat) (left right : Int), scalar_loop array key fuel left right ≠ .diverge →
      scalar_loop array key (fuel + 1) left right = scalar_loop array key fuel left right := by
  intro fuel
  induction fuel with
  | zero => intro left right h; exact absurd rfl h
  | succ fuel ih =>
    intro left right h
    rw [scalar_loop] at h ⊢
    conv_rhs => rw [scalar_loop]
    by_cases hlr : left ≤ right
    · simp only [if_pos hlr] at h ⊢
      cases hl : load array (add64 left (div64 (sub64 right left) 2)) with
      | none => rfl
      | some v =>
        simp only [hl] at h ⊢
        by_cases hv : v = key
        · simp only [if_pos hv]
        · simp only [if_neg hv] at h ⊢
          by_cases hlt : v < key
          · simp only [if_pos hlt] at h ⊢
            exact ih _ _ h
          · simp only [if_neg hlt] at h ⊢
            exact ih _ _ h
    · simp only [if_neg hlr]

/-- Once the pipelined loop ends within its budget, one more unit of budget gives the
same result. -/
theorem pipelined_loop_succ (array : List Int) (key : Int) :
    ∀ (fuel : Nat) (left right mid value : Int),
      pipelined_loop array key fuel left right mid value ≠ .diverge →
      pipelined_loop array key (fuel + 1) left right mid value =
        pipelined_loop array key fuel left right mid value := by
  intro fuel
  induction fuel with
  | zero => intro left right mid value h; exact absurd rfl h
  | succ fuel ih =>
    intro left right mid value h
    rw [pipelined_loop] at h ⊢
    conv_rhs => rw [pipelined_loop]
    by_cases hlr : left ≤ right
    · simp only [if_pos hlr] at h ⊢
      by_cases hv : value = key
      · simp only [if_pos hv]
      · simp only [if_neg hv] at h ⊢
        generalize (if value < key then add64 mid 1 else left) = l' at h ⊢
        generalize (if value < key then right else sub64 mid 1) = r' at h ⊢
        by_cases hgt : l' > r'
        · simp only [if_pos hgt]
        · simp only [if_neg hgt] at h ⊢
          cases hl : load array (add64 l' (div64 (sub64 r' l') 2)) with
          | none => rfl
          | some v =>
            simp only [hl] at h ⊢
            exact ih _ _ _ _ h
    · simp only [if_neg hlr]

/-- Once phase 2 ends within its budget, one more unit of budget gives the same result. -/
theorem pipelined_phase_succ (array : List Int) (key : Int) (fuel : Nat) (left right : Int)
    (h : pipelined_phase array key fuel left right ≠ .diverge) :
    pipelined_phase array key (fuel + 1) left right =
      pipelined_phase array key fuel left right := by
  unfold pipelined_phase at h ⊢
  by_cases hgt : left > right
  · simp only [if_pos hgt]
  · simp only [if_neg hgt] at h ⊢
    cases hl : load array (add64 left (div64 (sub64 right left) 2)) with
    | none => rfl
    | some v =>
      simp only [hl] at h ⊢
      exact pipelined_loop_succ array key fuel _ _ _ _ h

/-- Once the loop of `simd_binary_search` ends within its budget, one more unit of budget
gives the same result. -/
theorem simd_loop_succ (array : List Int) (key : Int) :
    ∀ (fuel : Nat) (left right : Int), simd_loop array key fuel left right ≠ .diverge →
      simd_loop array key (fuel + 1) left right = simd_loop array key fuel left right := by
  intro fuel
  induction fuel with
  | zero => intro left right h; exact absurd rfl h
  | succ fuel ih =>
    intro left right h
    rw [simd_loop] at h ⊢
    conv_rhs => rw [simd_loop]
    by_cases hc : sub64 right left > 16
    · simp only [if_pos hc] at h ⊢
      cases hs : vector_step array key left right with
      | fault => rfl
      | hit p => rfl
      | narrow l r =>
        rw [hs] at h
        exact ih _ _ h
    · simp only [if_neg hc] at h ⊢
      exact scalar_loop_succ array key (fuel + 1) left right h

/-- Once the loop of `simd_optimized_binary_search` ends within its budget, one more unit
of budget gives the same result. -/
theorem simd_optimized_loop_succ (array : List Int) (key : Int) :
    ∀ (fuel : Nat) (left right : Int),
      simd_optimized_loop array key fuel left right ≠ .diverge →
      simd_optimized_loop array key (fuel + 1) left right =
        simd_optimized_loop array key fuel left right := by
  intro fuel
  induction fuel with
  | zero => intro left right h; exact absurd rfl h
  | succ fuel ih =>
    intro left right h
    rw [simd_optimized_loop] at h ⊢
    conv_rhs => rw [simd_optimized_loop]
    by_cases hc : sub64 right left > 32
    · simp only [if_pos hc] at h ⊢
      cases hs : vector_step array key left right with
      | fault => rfl
      | hit p => rfl
      | narrow l r =>
        rw [hs] at h
        exact ih _ _ h
    · simp only [if_neg hc] at h ⊢
      exact pipelined_phase_succ array key (fuel + 1) left right h

/-- A run that ends within some budget ends in the same way within every larger one. -/
theorem budget_stable (g : Nat → Outcome) (hsucc : ∀ n, g n ≠ .diverge → g (n + 1) = g n)
    (n m : Nat) (hnm : n ≤ m) (hn : g n ≠ .diverge) : g m = g n := by
  induction m, hnm using Nat.le_induction with
  | base => rfl
  | succ k _ ih => rw [hsucc k (by rw [ih]; exact hn), ih]

/-- A run that returns `r` within some budget returns `r` or runs out of budget for every
budget: it never reads outside the array. -/
theorem budget_ret_or_diverge (g : Nat → Outcome)
    (hsucc : ∀ n, g n ≠ .diverge → g (n + 1) = g n) (N : Nat) (r : Int)
    (hN : g N = .ret r) (n : Nat) : g n = .ret r ∨ g n = .diverge := by
  rcases le_total n N with h | h
  · by_cases hd : g n = .diverge
    · exact Or.inr hd
    · have := budget_stable g hsucc n N h hd
      exact Or.inl (by rw [← this, hN])
  · have := budget_stable g hsucc N n h (by rw [hN]; exact fun hc => by cases hc)
    exact Or.inl (by rw [this, hN])

/-! ## The pipelined finishing phase refines the halving loop -/

/-- C15. On every array of length `size` (an `int64_t`), for every key and every range with
`0 ≤ left` and `right ≤ size - 1`, phase 2 of `simd_optimized_binary_search` and the
halving loop of `reference_binary_search`, each with a budget that covers the
candidates of the range, both return, and return the same value. -/
theorem pipelined_phase_refines_scalar (array : List Int) (key size left right : Int)
    (hsize : size = array.length) (hmax : size ≤ INT64_MAX)
    (h0 : 0 ≤ left) (h1 : right ≤ size - 1) (f1 f2 : Nat)
    (hf1 : right - left + 1 ≤ f1) (hf2 : right - left + 1 < f2) (hpos : 0 < f2) :
    ∃ r, pipelined_phase array key f1 left right = .ret r ∧
      scalar_loop array key f2 left right = .ret r := by
  subst hsize
  have hlen : (array.length : Int) ≤ 9223372036854775807 := hmax
  by_cases hlr : left ≤ right
  · obtain ⟨r, hr, _⟩ := scalar_loop_spec array key hlen (f1 + 1) left right h0 (by omega)
      (by omega) (by omega)
    obtain ⟨r', hr', _⟩ := scalar_loop_spec array key hlen f2 left right h0 (by omega)
      (by omega) hf2
    have hsame : r' = r := by
      have hsucc := fun n => scalar_loop_succ array key n left right
      rcases le_total (f1 + 1) f2 with h | h
      · have := budget_stable (fun n => scalar_loop array key n left right) hsucc _ _ h
          (by simp only [hr]; exact fun hc => by cases hc)
        simp only [hr, hr'] at this
        exact Outcome.ret.inj this
      · have := budget_stable (fun n => scalar_loop array key n left right) hsucc _ _ h
          (by simp only [hr']; exact fun hc => by cases hc)
        simp only [hr, hr'] at this
        exact (Outcome.ret.inj this).symm
    refine ⟨r, ?_, by rw [hr', hsame]⟩
    rw [pipelined_phase_eq_scalar array key hlen f1 left right h0 (by omega) hf1, hr]
  · refine ⟨-1, ?_, ?_⟩
    · unfold pipelined_phase
      rw [if_pos (by omega)]
    · obtain ⟨n, rfl⟩ : ∃ n, f2 = n + 1 := ⟨f2 - 1, by omega⟩
      rw [scalar_loop, if_neg hlr]

/-- C15 on the unsorted array of 40 elements, range `[3, 30]`, key 7. -/
theorem pipelined_phase_refines_scalar_witness :
    (40 : Int) = scrambled.length ∧ (40 : Int) ≤ INT64_MAX ∧ (0 : Int) ≤ 3 ∧
      (30 : Int) ≤ 40 - 1 ∧ (30 : Int) - 3 + 1 ≤ (28 : Nat) ∧ (30 : Int) - 3 + 1 < (29 : Nat) ∧
      0 < 29 ∧
      ∃ r, pipelined_phase scrambled 7 28 3 30 = .ret r ∧
        scalar_loop scrambled 7 29 3 30 = .ret r :=
  ⟨by decide, by decide, by decide, by decide, by decide, by decide, by decide,
    pipelined_phase_refines_scalar scrambled 7 40 3 30 (by decide) (by decide) (by decide)
      (by decide) 28 29 (by decide) (by decide) (by decide)⟩

/-! ## Overflow-free midpoint -/

/-- The ranges listed by `reference_head` are the states of the loop of
`reference_binary_search`: the loop continues from each of them. -/
theorem scalar_loop_from_head (array : List Int) (key size : Int) :
    ∀ (n fuel : Nat) (left right : Int),
      reference_head array key size n = some (left, right) → n ≤ fuel →
      scalar_loop array key fuel 0 (sub64 size 1) =
        scalar_loop array key (fuel - n) left right := by
  intro n
  induction n with
  | zero =>
    intro fuel left right h _
    simp only [reference_head, Option.some.injEq, Prod.mk.injEq] at h
    rw [← h.1, ← h.2]; rfl
  | succ n ih =>
    intro fuel left right h hfuel
    rw [reference_head] at h
    cases hprev : reference_head array key size n with
    | none => rw [hprev] at h; cases h
    | some lr =>
      obtain ⟨l, r⟩ := lr
      rw [hprev] at h
      simp only at h
      rw [ih fuel l r hprev (by omega)]
      have hf : fuel - n = (fuel - (n + 1)) + 1 := by omega
      rw [hf, scalar_loop]
      by_cases hlr : l ≤ r
      · simp only [if_pos hlr] at h ⊢
        cases hl : load array (add64 l (div64 (sub64 r l) 2)) with
        | none => rw [hl] at h; cases h
        | some v =>
          simp only [hl] at h ⊢
          by_cases hv : v = key
          · rw [if_pos hv] at h; cases h
          · simp only [if_neg hv] at h ⊢
            by_cases hlt : v < key
            · simp only [if_pos hlt, Option.some.injEq, Prod.mk.injEq] at h ⊢
              rw [← h.1, ← h.2]
            · simp only [if_neg hlt, Option.some.injEq, Prod.mk.injEq] at h ⊢
              rw [← h.1, ← h.2]
      · rw [if_neg hlr] at h; cases h

/-- Every range reached by the loop of `reference_binary_search` satisfies
`0 ≤ left`, `right ≤ size - 1` and `left ≤ right + 1`. -/
theorem reference_head_invariant (array : List Int) (key size : Int) (h0 : 0 ≤ size)
    (hmax : size ≤ 9223372036854775807) :
    ∀ (n : Nat) (left right : Int), reference_head array key size n = some (left, right) →
      0 ≤ left ∧ right ≤ size - 1 ∧ left ≤ right + 1 := by
  intro n
  induction n with
  | zero =>
    intro left right h
    simp only [reference_head, Option.some.injEq, Prod.mk.injEq] at h
    rw [sub64_eq (by omega) (by omega)] at h
    omega
  | succ n ih =>
    intro left right h
    rw [reference_head] at h
    cases hprev : reference_head array key size n with
    | none => rw [hprev] at h; cases h
    | some lr =>
      obtain ⟨l, r⟩ := lr
      rw [hprev] at h
      simp only at h
      obtain ⟨i0, i1, i2⟩ := ih l r hprev
      by_cases hlr : l ≤ r
      · simp only [if_pos hlr, midpoint_eq i0 hlr (by omega)] at h
        cases hl : load array (l + (r - l) / 2) with
        | none => rw [hl] at h; cases h
        | some v =>
          simp only [hl] at h
          by_cases hv : v = key
          · rw [if_pos hv] at h; cases h
          · simp only [if_neg hv] at h
            by_cases hlt : v < key
            · simp only [if_pos hlt, Option.some.injEq, Prod.mk.injEq] at h
              rw [add64_eq (by omega) (by omega)] at h
              omega
            · simp only [if_neg hlt, Option.some.injEq, Prod.mk.injEq] at h
              rw [sub64_eq (by omega) (by omega)] at h
              omega
      · rw [if_neg hlr] at h; cases h

/-- C16. Overflow-free midpoint: for every `size` with `0 ≤ size ≤ 2^63 - 1`, at every
test of the loop of `reference_binary_search` the values `size - 1`, `right - left`,
`(right - left) / 2`, `left + (right - left) / 2`, `mid + 1` and `mid - 1` lie in the
signed 64-bit range, so that the `int64_t` operations compute them exactly, and `mid`
is `(left + right) / 2` rounded down, with `left ≤ mid ≤ right`. -/
theorem overflow_free_midpoint (array : List Int) (key size : Int) (h0 : 0 ≤ size)
    (hmax : size ≤ INT64_MAX) (n : Nat) (left right : Int)
    (hhead : reference_head array key size n = some (left, right)) :
    isInt64 (size - 1) ∧ sub64 size 1 = size - 1 ∧
      0 ≤ left ∧ right ≤ size - 1 ∧ left ≤ right + 1 ∧
      (left ≤ right →
        isInt64 (right - left) ∧ sub64 right left = right - left ∧
        isInt64 ((right - left) / 2) ∧ div64 (right - left) 2 = (right - left) / 2 ∧
        isInt64 (left + (right - left) / 2) ∧
        add64 left (div64 (sub64 right left) 2) = (left + right) / 2 ∧
        left ≤ (left + right) / 2 ∧ (left + right) / 2 ≤ right ∧
        isInt64 ((left + right) / 2 + 1) ∧
        add64 ((left + right) / 2) 1 = (left + right) / 2 + 1 ∧
        isInt64 ((left + right) / 2 - 1) ∧
        sub64 ((left + right) / 2) 1 = (left + right) / 2 - 1) := by
  have hmax' : size ≤ 9223372036854775807 := hmax
  obtain ⟨i0, i1, i2⟩ := reference_head_invariant array key size h0 hmax' n left right hhead
  unfold isInt64 INT64_MIN INT64_MAX
  refine ⟨by omega, sub64_eq (by omega) (by omega), i0, i1, i2, ?_⟩
  intro hlr
  refine ⟨by omega, sub64_eq (by omega) (by omega), by omega,
    div64_eq (by omega) (by omega) (by omega), by omega, ?_, by omega, by omega, by omega,
    add64_eq (by omega) (by omega), by omega, sub64_eq (by omega) (by omega)⟩
  rw [midpoint_eq i0 hlr (by omega)]
  omega

/-- C16 on `S[i] = 2 * i`, 100 elements, key 43: the third test of the loop is reached with
the range `(0, 23)`. -/
theorem overflow_free_midpoint_witness :
    (0 : Int) ≤ 100 ∧ (100 : Int) ≤ INT64_MAX ∧
      reference_head (evens 100) 43 100 2 = some (0, 23) ∧
      (isInt64 (100 - 1) ∧ sub64 100 1 = 100 - 1 ∧
      (0 : Int) ≤ 0 ∧ (23 : Int) ≤ 100 - 1 ∧ (0 : Int) ≤ 23 + 1 ∧
      ((0 : Int) ≤ 23 →
        isInt64 (23 - 0) ∧ sub64 23 0 = 23 - 0 ∧
        isInt64 ((23 - 0) / 2) ∧ div64 (23 - 0) 2 = (23 - 0) / 2 ∧
        isInt64 (0 + (23 - 0) / 2) ∧
        add64 0 (div64 (sub64 23 0) 2) = (0 + 23) / 2 ∧
        (0 : Int) ≤ (0 + 23) / 2 ∧ ((0 : Int) + 23) / 2 ≤ 23 ∧
        isInt64 ((0 + 23) / 2 + 1) ∧
        add64 ((0 + 23) / 2) 1 = (0 + 23) / 2 + 1 ∧
        isInt64 ((0 + 23) / 2 - 1) ∧
        sub64 ((0 + 23) / 2) 1 = (0 + 23) / 2 - 1)) :=
  ⟨by decide, by decide, by decide,
    overflow_free_midpoint (evens 100) 43 100 (by decide) (by decide) 2 0 23 (by decide)⟩

/-! ## Index safety and termination -/

/-- An outcome that is a returned value or an exhausted budget is not a fault. -/
theorem not_fault_of_ret_or_diverge {o : Outcome} {r : Int}
    (h : o = .ret r ∨ o = .diverge) : o ≠ .fault := by
  rcases h with h | h <;> rw [h] <;> exact fun hc => by cases hc

/-- C18. Index safety without preconditions on the data: on every array `S` of length
`size ≥ 0` (an `int64_t`), in any order, and for every key, no load of
`reference_binary_search`, `simd_binary_search` or `simd_optimized_binary_search` is
outside the array: the three calls end with a returned value, and their loops, started
as the calls start them, end with a fault for no iteration budget at all. -/
theorem index_safety (S : List Int) (k size : Int) (hsize : size = S.length)
    (hmax : size ≤ INT64_MAX) :
    (reference_binary_search S k size ≠ .fault ∧ simd_binary_search S k size ≠ .fault ∧
      simd_optimized_binary_search S k size ≠ .fault) ∧
    ∀ fuel : Nat,
      scalar_loop S k fuel 0 (sub64 size 1) ≠ .fault ∧
      simd_loop S k fuel 0 (sub64 size 1) ≠ .fault ∧
      simd_optimized_loop S k fuel 0 (sub64 size 1) ≠ .fault := by
  subst hsize
  have hlen : (S.length : Int) ≤ 9223372036854775807 := hmax
  have hsub : sub64 (S.length : Int) 1 = S.length - 1 := sub64_eq (by omega) (by omega)
  obtain ⟨r1, h1, _⟩ := reference_post S k hlen
  obtain ⟨r2, h2, _⟩ := simd_post S k hlen
  obtain ⟨r3, h3, _⟩ := simd_optimized_post S k hlen
  obtain ⟨r4, h4, _⟩ := simd_loop_spec S k hlen ((S.length : Int).toNat + 1) 0
    (S.length - 1) (le_refl _) (by omega) (by omega) (by omega)
  obtain ⟨r5, h5, _⟩ := simd_optimized_loop_spec S k hlen ((S.length : Int).toNat + 1) 0
    (S.length - 1) (le_refl _) (by omega) (by omega) (by omega)
  refine ⟨⟨not_fault_of_ret_or_diverge (Or.inl h1), not_fault_of_ret_or_diverge (Or.inl h2),
    not_fault_of_ret_or_diverge (Or.inl h3)⟩, ?_⟩
  intro fuel
  rw [hsub]
  unfold reference_binary_search at h1
  rw [hsub] at h1
  exact ⟨not_fault_of_ret_or_diverge
      (budget_ret_or_diverge (fun n => scalar_loop S k n 0 (S.length - 1))
        (fun n => scalar_loop_succ S k n _ _) _ r1 h1 fuel),
    not_fault_of_ret_or_diverge
      (budget_ret_or_diverge (fun n => simd_loop S k n 0 (S.length - 1))
        (fun n => simd_loop_succ S k n _ _) _ r4 h4 fuel),
    not_fault_of_ret_or_diverge
      (budget_ret_or_diverge (fun n => simd_optimized_loop S k n 0 (S.length - 1))
        (fun n => simd_optimized_loop_succ S k n _ _) _ r5 h5 fuel)⟩

/-- C18 on the unsorted array of 40 elements with duplicates, key 7. -/
theorem index_safety_witness :
    (40 : Int) = scrambled.length ∧ (40 : Int) ≤ INT64_MAX ∧
      ((reference_binary_search scrambled 7 40 ≠ .fault ∧
        simd_binary_search scrambled 7 40 ≠ .fault ∧
        simd_optimized_binary_search scrambled 7 40 ≠ .fault) ∧
      ∀ fuel : Nat,
        scalar_loop scrambled 7 fuel 0 (sub64 40 1) ≠ .fault ∧
        simd_loop scrambled 7 fuel 0 (sub64 40 1) ≠ .fault ∧
        simd_optimized_loop scrambled 7 fuel 0 (sub64 40 1) ≠ .fault) :=
  ⟨by decide, by decide, index_safety scrambled 7 40 (by decide) (by decide)⟩

/-- C19. Termination on every input: on every array `S` of length `size` (an `int64_t`), in
any order, and for every key, `simd_binary_search` and `simd_optimized_binary_search`
return within the budget of `size + 1` loop tests, and a larger budget gives the same
value; every vector step that does not return and every scalar step strictly decreases
`right - left`. -/
theorem searches_terminate (S : List Int) (k size : Int) (hsize : size = S.length)
    (hmax : size ≤ INT64_MAX) :
    (∃ r, simd_binary_search S k size = .ret r ∧
      (32 ≤ size → ∀ fuel : Nat, size.toNat + 1 ≤ fuel →
        simd_loop S k fuel 0 (sub64 size 1) = .ret r)) ∧
    (∃ r, simd_optimized_binary_search S k size = .ret r ∧
      (32 ≤ size → ∀ fuel : Nat, size.toNat + 1 ≤ fuel →
        simd_optimized_loop S k fuel 0 (sub64 size 1) = .ret r)) ∧
    (∀ left right l r, 0 ≤ left → left ≤ right → right ≤ size - 1 →
      sub64 right left > 16 → vector_step S k left right = .narrow l r →
      r - l < right - left ∧ sub64 r l < sub64 right left) ∧
    (∀ left right, 0 ≤ left → left ≤ right → right ≤ size - 1 →
      right - add64 (add64 left (div64 (sub64 right left) 2)) 1 < right - left ∧
      sub64 (add64 left (div64 (sub64 right left) 2)) 1 - left < right - left) := by
  subst hsize
  have hlen : (S.length : Int) ≤ 9223372036854775807 := hmax
  obtain ⟨r2, h2, _⟩ := simd_post S k hlen
  obtain ⟨r3, h3, _⟩ := simd_optimized_post S k hlen
  refine ⟨⟨r2, h2, ?_⟩, ⟨r3, h3, ?_⟩, ?_, ?_⟩
  · intro h32 fuel hfuel
    unfold simd_binary_search at h2
    rw [if_neg (by omega)] at h2
    have := budget_stable (fun n => simd_loop S k n 0 (sub64 (S.length : Int) 1))
      (fun n => simd_loop_succ S k n _ _) _ fuel hfuel
      (by simp only [h2]; exact fun hc => by cases hc)
    simp only [h2] at this
    exact this
  · intro h32 fuel hfuel
    unfold simd_optimized_binary_search at h3
    rw [if_neg (by omega)] at h3
    have := budget_stable (fun n => simd_optimized_loop S k n 0 (sub64 (S.length : Int) 1))
      (fun n => simd_optimized_loop_succ S k n _ _) _ fuel hfuel
      (by simp only [h3]; exact fun hc => by cases hc)
    simp only [h3] at this
    exact this
  · intro left right l r h0 hlr h1 hrun hs
    rw [sub64_eq (by omega) (by omega)] at hrun
    have hspec := vector_step_spec S k hlen h0 (by omega : right < S.length) hrun
    rw [hs] at hspec
    obtain ⟨hl, hr, hlr', hdec, _⟩ := hspec
    rw [sub64_eq (by omega) (by omega), sub64_eq (by omega) (by omega)]
    exact ⟨hdec, hdec⟩
  · intro left right h0 hlr h1
    rw [midpoint_eq h0 hlr (by omega), add64_eq (by omega) (by omega),
      sub64_eq (by omega) (by omega)]
    omega

/-- C19 on the unsorted array of 40 elements with duplicates, key 7. -/
theorem searches_terminate_witness :
    (40 : Int) = scrambled.length ∧ (40 : Int) ≤ INT64_MAX ∧
      simd_binary_search scrambled 7 40 = .ret (-1) ∧
      simd_optimized_binary_search scrambled 4 40 = .ret 39 ∧
      ((∃ r, simd_binary_search scrambled 7 40 = .ret r ∧
        ((32 : Int) ≤ 40 → ∀ fuel : Nat, (40 : Int).toNat + 1 ≤ fuel →
          simd_loop scrambled 7 fuel 0 (sub64 40 1) = .ret r)) ∧
      (∃ r, simd_optimized_binary_search scrambled 7 40 = .ret r ∧
        ((32 : Int) ≤ 40 → ∀ fuel : Nat, (40 : Int).toNat + 1 ≤ fuel →
          simd_optimized_loop scrambled 7 fuel 0 (sub64 40 1) = .ret r)) ∧
      (∀ left right l r, 0 ≤ left → left ≤ right → right ≤ 40 - 1 →
        sub64 right left > 16 → vector_step scrambled 7 left right = .narrow l r →
        r - l < right - left ∧ sub64 r l < sub64 right left) ∧
      (∀ left right, 0 ≤ left → left ≤ right → right ≤ 40 - 1 →
        right - add64 (add64 left (div64 (sub64 right left) 2)) 1 < right - left ∧
        sub64 (add64 left (div64 (sub64 right left) 2)) 1 - left < right - left)) :=
  ⟨by decide, by decide, by decide, by decide,
    searches_terminate scrambled 7 40 (by decide) (by decide)⟩

/-! ## Membership with duplicates -/

/-- A search of the whole of a non-decreasing array returns `-1` exactly when the array
does not hold the key, and otherwise an index that holds it. -/
theorem SearchPost.membership {S : List Int} {key : Int} {o : Outcome}
    (h : SearchPost S key 0 (S.length - 1) o) (hS : NonDecreasing S) :
    ∃ r, o = .ret r ∧ (r = -1 ↔ key ∉ S) ∧
      (r ≠ -1 → 0 ≤ r ∧ r < S.length ∧ load S r = some key) := by
  obtain ⟨r, hr, hr1, hr2⟩ := h
  refine ⟨r, hr, ⟨?_, ?_⟩, ?_⟩
  · intro hneg hmem
    obtain ⟨i, hi⟩ := mem_iff_load.1 hmem
    obtain ⟨hi0, hi1, _⟩ := load_eq_some_iff.1 hi
    exact hr2 hS i hi0 (by omega) hi hneg
  · intro hk
    rcases hr1 with h | ⟨_, _, hc⟩
    · exact h
    · exact absurd (mem_iff_load.2 ⟨r, hc⟩) hk
  · intro hne
    rcases hr1 with h | ⟨ha, hb, hc⟩
    · exact absurd h hne
    · exact ⟨ha, by omega, hc⟩

/-- C20. Membership is decided correctly with duplicates: on every non-decreasing array `S`
of length `size` (an `int64_t`) and for every key `k`, each of the three searches returns
`-1` if and only if `k` occurs nowhere in `S`, and otherwise returns an index that
holds `k`. -/
theorem membership_with_duplicates (S : List Int) (k size : Int) (hS : NonDecreasing S)
    (hsize : size = S.length) (hmax : size ≤ INT64_MAX) :
    (∃ r, reference_binary_search S k size = .ret r ∧ (r = -1 ↔ k ∉ S) ∧
      (r ≠ -1 → 0 ≤ r ∧ r < size ∧ load S r = some k)) ∧
    (∃ r, simd_binary_search S k size = .ret r ∧ (r = -1 ↔ k ∉ S) ∧
      (r ≠ -1 → 0 ≤ r ∧ r < size ∧ load S r = some k)) ∧
    (∃ r, simd_optimized_binary_search S k size = .ret r ∧ (r = -1 ↔ k ∉ S) ∧
      (r ≠ -1 → 0 ≤ r ∧ r < size ∧ load S r = some k)) := by
  subst hsize
  have hlen : (S.length : Int) ≤ 9223372036854775807 := hmax
  exact ⟨(reference_post S k hlen).membership hS, (simd_post S k hlen).membership hS,
    (simd_optimized_post S k hlen).membership hS⟩

/-- C20 on 40 elements in which every value occurs four times, key 6. -/
theorem membership_with_duplicates_witness :
    NonDecreasing plateaus ∧ (40 : Int) = plateaus.length ∧ (40 : Int) ≤ INT64_MAX ∧
      reference_binary_search plateaus 6 40 = .ret 14 ∧
      simd_binary_search plateaus 6 40 = .ret 15 ∧
      simd_optimized_binary_search plateaus 6 40 = .ret 15 ∧
      ((∃ r, reference_binary_search plateaus 6 40 = .ret r ∧ (r = -1 ↔ (6 : Int) ∉ plateaus) ∧
        (r ≠ -1 → 0 ≤ r ∧ r < 40 ∧ load plateaus r = some 6)) ∧
      (∃ r, simd_binary_search plateaus 6 40 = .ret r ∧ (r = -1 ↔ (6 : Int) ∉ plateaus) ∧
        (r ≠ -1 → 0 ≤ r ∧ r < 40 ∧ load plateaus r = some 6)) ∧
      (∃ r, simd_optimized_binary_search plateaus 6 40 = .ret r ∧
        (r = -1 ↔ (6 : Int) ∉ plateaus) ∧
        (r ≠ -1 → 0 ≤ r ∧ r < 40 ∧ load plateaus r = some 6))) :=
  ⟨by decide, by decide, by decide, by decide, by decide, by decide,
    membership_with_duplicates plateaus 6 40 (by decide) (by decide) (by decide)⟩

/-! ## The duplicate-free precondition is needed -/

/-- C21. The duplicate-free precondition is necessary for equivalence: there are a
non-decreasing array with duplicate values and a key that it holds on which
`simd_binary_search` and `reference_binary_search` return different indices; on 32 equal
elements the quaternary search returns the probe position 8 and the scalar search the
midpoint 15. -/
theorem duplicates_break_equivalence :
    ∃ (S : List Int) (k : Int), NonDecreasing S ∧ ¬ StrictlyAscending S ∧ k ∈ S ∧
      (32 : Int) = S.length ∧ load S 8 = some k ∧ load S 15 = some k ∧
      simd_binary_search S k 32 = .ret 8 ∧ reference_binary_search S k 32 = .ret 15 ∧
      simd_binary_search S k 32 ≠ reference_binary_search S k 32 :=
  ⟨constant32, 7, by decide, by decide, by decide, by decide, by decide, by decide,
    by decide, by decide, by decide⟩

/-! ## The empty sequence -/

/-- No element can be loaded from the empty array. -/
theorem load_nil (i : Int) : load [] i = none := by
  unfold load
  split <;> rfl

/-- C22. Empty sequence: for `size = 0`, and for every negative `size` above `INT64_MIN`,
every key and every array, each of the three searches returns `-1`; it reads no
element, since it does so on the empty array too, from which nothing can be loaded. -/
theorem empty_sequence (S : List Int) (k size : Int) (hsize : size ≤ 0)
    (hmin : INT64_MIN < size) :
    (reference_binary_search S k size = .ret (-1) ∧
      simd_binary_search S k size = .ret (-1) ∧
      simd_optimized_binary_search S k size = .ret (-1)) ∧
    (reference_binary_search [] k size = .ret (-1) ∧
      simd_binary_search [] k size = .ret (-1) ∧
      simd_optimized_binary_search [] k size = .ret (-1)) ∧
    ∀ i, load [] i = none := by
  have hmin' : -9223372036854775808 < size := hmin
  have href : ∀ A : List Int, reference_binary_search A k size = .ret (-1) := by
    intro A
    unfold reference_binary_search
    have hfuel : size.toNat = 0 := by omega
    rw [hfuel, sub64_eq (by omega) (by omega), scalar_loop, if_neg (by omega)]
  have hsimd : ∀ A : List Int, simd_binary_search A k size = .ret (-1) := by
    intro A
    unfold simd_binary_search
    rw [if_pos (by omega)]
    exact href A
  have hopt : ∀ A : List Int, simd_optimized_binary_search A k size = .ret (-1) := by
    intro A
    unfold simd_optimized_binary_search
    rw [if_pos (by omega)]
    exact href A
  exact ⟨⟨href S, hsimd S, hopt S⟩, ⟨href [], hsimd [], hopt []⟩, load_nil⟩

/-- C22 at `size = 0` on the empty array and at `size = -5` on `S[i] = 2 * i`; at
`size = INT64_MIN`, which the claim leaves out, `size - 1` wraps around to `INT64_MAX`
and the reference search reads outside the empty array. -/
theorem empty_sequence_witness :
    ((0 : Int) ≤ 0 ∧ INT64_MIN < 0 ∧
      ((reference_binary_search [] 42 0 = .ret (-1) ∧
        simd_binary_search [] 42 0 = .ret (-1) ∧
        simd_optimized_binary_search [] 42 0 = .ret (-1)) ∧
      (reference_binary_search [] 42 0 = .ret (-1) ∧
        simd_binary_search [] 42 0 = .ret (-1) ∧
        simd_optimized_binary_search [] 42 0 = .ret (-1)) ∧
      ∀ i, load [] i = none)) ∧
    ((-5 : Int) ≤ 0 ∧ INT64_MIN < -5 ∧
      ((reference_binary_search (evens 100) 42 (-5) = .ret (-1) ∧
        simd_binary_search (evens 100) 42 (-5) = .ret (-1) ∧
        simd_optimized_binary_search (evens 100) 42 (-5) = .ret (-1)) ∧
      (reference_binary_search [] 42 (-5) = .ret (-1) ∧
        simd_binary_search [] 42 (-5) = .ret (-1) ∧
        simd_optimized_binary_search [] 42 (-5) = .ret (-1)) ∧
      ∀ i, load [] i = none)) ∧
    sub64 INT64_MIN 1 = INT64_MAX ∧ reference_binary_search [] 42 INT64_MIN = .fault :=
  ⟨⟨by decide, by decide, empty_sequence [] 42 0 (by decide) (by decide)⟩,
    ⟨by decide, by decide, empty_sequence (evens 100) 42 (-5) (by decide) (by decide)⟩,
    by decide, by decide⟩

end SpeedUp
